import Mathlib

/-!
# compare_functions.cpp

A shallow embedding of the dispatch benchmark `compare_functions.cpp`: the
entities `UpdateableA`/`UpdateableB` (virtual dispatch) and `LambdaA`/`LambdaB`
(type-erased callables), the timer `ScopedMeasurer`, the two overloads of
`measure_only_call`, the population builders `time_virtual` and
`time_std_function`, and `main`.

Conventions of the embedding.

* `size_t` counters are natural numbers below `2 ^ 64`; `++calls` wraps.
* The address of a heap entity is its index in the vector of `unique_ptr`s that
  owns it: every entity is created by `new` and handed at once to
  `emplace_back` of an owning vector from which nothing is ever removed, so the
  index identifies the object for the whole run.
* Calling through an address that owns no entity, and overflowing the `int`
  loop index, are undefined behaviour in C++; the embedding returns `none`.
* What the C++ standard leaves to the implementation (the random engine and the
  distribution, the growth policy of `std::vector`, the clock) is the
  parameter `Platform`.
* A vector of `unique_ptr`s that reallocates moves the pointers, not the
  entities, so addresses are stable; a vector of erased callables that
  reallocates moves the callables, which is modelled.
* `num_calls` is fixed by the build (`_DEBUG`); the functions that read it take
  its value as an argument and `main` passes the value of the build.
* Allocation failure is not modelled.
-/

namespace CompareFunctions

/-! ## Machine integers and the platform -/

/-- Number of values of a `size_t` (64-bit target). -/
def SIZE_T_MOD : Nat := 2 ^ 64

/-- Largest value of an `int`. -/
def INT_MAX : Nat := 2 ^ 31 - 1

/-- The statement `++calls` on a `size_t`. -/
def pre_increment (calls : Nat) : Nat := (calls + 1) % SIZE_T_MOD

/-- A `float`, kept as its IEEE-754 bit pattern; no operation of the program reads it. -/
abbrev float := Nat

/-- The literal `0.016f` passed to every call. -/
def tick : float := 0x3C83126F

/-- The implementation-defined parts of the standard library. -/
structure Platform where
  /-- State of a `std::default_random_engine` -/
  Engine : Type
  /-- `std::default_random_engine generator(seed)` -/
  seed_engine : Int → Engine
  /-- `random_int(generator)` for `std::uniform_int_distribution<int> random_int(0, 1)` -/
  random_int : Engine → Fin 2 × Engine
  /-- Whether `emplace_back` on a `std::vector` of the given size reallocates -/
  reallocates : Nat → Bool
  /-- The successive readings of `std::chrono::high_resolution_clock::now()`, in ticks -/
  now : Nat → Int
  /-- `duration_cast<std::chrono::milliseconds>(d).count()` for a tick difference `d` -/
  duration_cast_ms : Int → Int

/-- What outlives a benchmark function: the two static counters, standard output and
the number of clock readings taken so far. -/
structure World where
  UpdateableB_calls : Nat
  LambdaB_calls : Nat
  cout : String
  clock_reads : Nat
deriving DecidableEq, Repr

/-- State at program start: `size_t UpdateableB::calls = 0;`, `size_t LambdaB::calls = 0;`. -/
def World.start : World := ⟨0, 0, "", 0⟩

/-! ## ScopedMeasurer -/

structure ScopedMeasurer where
  name : String
  before : Int
deriving DecidableEq, Repr

/-- `ScopedMeasurer(std::string name)`: stores the name and reads the clock. -/
def ScopedMeasurer.ctor (P : Platform) (name : String) (w : World) : ScopedMeasurer × World :=
  (⟨name, P.now w.clock_reads⟩, { w with clock_reads := w.clock_reads + 1 })

/-- `~ScopedMeasurer()`: reads the clock again and prints `name: <ms> ms` and `std::endl`. -/
def ScopedMeasurer.dtor (P : Platform) (self : ScopedMeasurer) (w : World) : World :=
  let time_spent := P.duration_cast_ms (P.now w.clock_reads - self.before)
  { w with
    clock_reads := w.clock_reads + 1
    cout := w.cout ++ self.name ++ ": " ++ toString time_spent ++ " ms" ++ "\n" }

/-! ## Constants -/

/-- `static const size_t num_allocations = 1000;` -/
def num_allocations : Nat := 1000

/-- `num_calls`: 10000 when `_DEBUG` is defined, 100000 otherwise. -/
def num_calls (DEBUG : Bool) : Nat := if DEBUG then 10000 else 100000

/-- The loop `for (int i = 0; i < num_calls; ++i) body`. The first number is the count of
passes still to run, the second the value of `i`. Incrementing `i` past `INT_MAX` is
undefined. -/
def for_int {S : Type} (body : S → Option S) : Nat → Nat → S → Option S
  | 0, _, s => some s
  | remaining + 1, i, s =>
    (body s).bind fun s1 =>
      if i + 1 ≤ INT_MAX then for_int body remaining (i + 1) s1 else none

/-- The loop `for (auto & x : container) body`, front to back. -/
def for_each {H S : Type} (body : H → S → Option S) : List H → S → Option S
  | [], s => some s
  | x :: rest, s => (body x s).bind (for_each body rest)

/-! ## Virtual dispatch -/

structure UpdateableA where
  calls : Nat
deriving DecidableEq, Repr

/-- `UpdateableB` has no instance members: its counter is the static `UpdateableB::calls`. -/
structure UpdateableB where
deriving DecidableEq, Repr

/-- An object behind an `Updateable *`: its dynamic type with its members. -/
inductive Updateable where
  | A (obj : UpdateableA)
  | B (obj : UpdateableB)
deriving DecidableEq, Repr

/-- `UpdateableA()`: `calls(0)`. -/
def UpdateableA.ctor : UpdateableA := ⟨0⟩

/-- `UpdateableA::update`: `++calls` on the instance. -/
def UpdateableA.update (self : UpdateableA) (_dt : float) : UpdateableA :=
  ⟨pre_increment self.calls⟩

/-- `UpdateableB::update`: `++calls` on the static member. -/
def UpdateableB.update (_self : UpdateableB) (_dt : float) (w : World) : World :=
  { w with UpdateableB_calls := pre_increment w.UpdateableB_calls }

/-- Memory seen by `time_virtual`: its two local vectors and the world. An
`Updateable *` is an index into `updateables`. -/
structure VirtualState where
  updateables : List Updateable
  update_loop : List Nat
  world : World
deriving DecidableEq, Repr

/-- The call `updateable->update(dt)` through the pointer `p`. -/
def Updateable.update (p : Nat) (dt : float) (s : VirtualState) : Option VirtualState :=
  match s.updateables[p]? with
  | some (Updateable.A obj) =>
    some { s with updateables := s.updateables.set p (Updateable.A (obj.update dt)) }
  | some (Updateable.B obj) => some { s with world := obj.update dt s.world }
  | none => none

/-- One pass `for (auto & updateable : container) updateable->update(0.016f);`. -/
def pass_virtual (container : List Nat) (s : VirtualState) : Option VirtualState :=
  for_each (fun updateable => Updateable.update updateable tick) container s

/-- `void measure_only_call(const std::vector<Updateable *> & container)`. -/
def measure_only_call_virtual (P : Platform) (num_calls : Nat) (container : List Nat)
    (s : VirtualState) : Option VirtualState :=
  let (measure, w) := ScopedMeasurer.ctor P "virtual function" s.world
  (for_int (pass_virtual container) num_calls 0 { s with world := w }).map fun s1 =>
    { s1 with world := measure.dtor P s1.world }

/-- The locals `updateables` and `update_loop` of `time_virtual`. -/
structure VirtualFrame where
  updateables : List Updateable
  update_loop : List Nat
deriving DecidableEq, Repr

/-- The memory made of the locals of `time_virtual` and the world. -/
def VirtualFrame.with_world (fr : VirtualFrame) (w : World) : VirtualState :=
  ⟨fr.updateables, fr.update_loop, w⟩

/-- Body of the `for` loop of `time_virtual`. -/
def time_virtual_body (P : Platform) (st : VirtualFrame × P.Engine) : VirtualFrame × P.Engine :=
  let (r, generator) := P.random_int st.2
  let updateables :=
    if r.val ≠ 0 then st.1.updateables ++ [Updateable.A UpdateableA.ctor]
    else st.1.updateables ++ [Updateable.B ⟨⟩]
  (⟨updateables, st.1.update_loop ++ [updateables.length - 1]⟩, generator)

/-- The locals of `time_virtual` after `n` rounds of its `for` loop. -/
def time_virtual_populate (P : Platform) (n : Nat) (seed : Int) : VirtualFrame × P.Engine :=
  (time_virtual_body P)^[n] (⟨[], []⟩, P.seed_engine seed)

/-- `void time_virtual(int seed)`; the locals are destroyed on return. -/
def time_virtual (P : Platform) (num_calls : Nat) (seed : Int) (w : World) : Option World :=
  let fr := (time_virtual_populate P num_allocations seed).1
  (measure_only_call_virtual P num_calls fr.update_loop (fr.with_world w)).map fun s => s.world

/-! ## Type-erased callables -/

structure LambdaA where
  calls : Nat
deriving DecidableEq, Repr

/-- `LambdaB` has no instance members: its counter is the static `LambdaB::calls`. -/
structure LambdaB where
deriving DecidableEq, Repr

/-- The closure `[this](float dt) { update(dt); }` of the constructor of `LambdaA`
or of `LambdaB`, with the captured `this`. -/
inductive Closure where
  | A (this : Nat)
  | B (this : Nat)
deriving DecidableEq, Repr

/-- The argument of the template parameter `std_function`. -/
inductive FunctionImpl where
  | std
  | func
deriving DecidableEq, Repr

/-- Modelled from the spec: `func::function<void (float)>` of `function.h`, which is not
part of the sources at hand, and `std::function<void (float)>` of the standard library.
Per the spec the container is constructible from any closure of signature
`(float) -> void`, is called like the standard container, and is copied and moved by
value without altering which entity it invokes and without truncating the captured
state: a value holds exactly the closure it was built from. -/
structure function (impl : FunctionImpl) where
  target : Closure
deriving DecidableEq, Repr

/-- Modelled from the spec: construction of the erased callable from a closure. -/
def function.ctor {impl : FunctionImpl} (f : Closure) : function impl := ⟨f⟩

/-- Modelled from the spec: move (or copy) construction, as done for every element when
a vector reallocates; the new value holds the captured state of the old one. -/
def function.move {impl : FunctionImpl} (other : function impl) : function impl :=
  ⟨other.target⟩

/-- `update_loop.emplace_back(f)` on a `std::vector<std_function>`: on reallocation the
elements are moved to the new storage, then the new element is constructed at the end. -/
def emplace_back (P : Platform) {impl : FunctionImpl} (update_loop : List (function impl))
    (f : Closure) : List (function impl) :=
  (if P.reallocates update_loop.length then update_loop.map function.move else update_loop)
    ++ [function.ctor f]

/-- `LambdaA(std::vector<F> & update_loop)` for the object at address `this`. -/
def LambdaA.ctor (P : Platform) {impl : FunctionImpl} (this : Nat)
    (update_loop : List (function impl)) : LambdaA × List (function impl) :=
  (⟨0⟩, emplace_back P update_loop (Closure.A this))

/-- `LambdaB(std::vector<F> & update_loop)` for the object at address `this`. -/
def LambdaB.ctor (P : Platform) {impl : FunctionImpl} (this : Nat)
    (update_loop : List (function impl)) : LambdaB × List (function impl) :=
  (⟨⟩, emplace_back P update_loop (Closure.B this))

/-- `LambdaA::update`: `++calls` on the instance. -/
def LambdaA.update (self : LambdaA) (_dt : float) : LambdaA := ⟨pre_increment self.calls⟩

/-- `LambdaB::update`: `++calls` on the static member. -/
def LambdaB.update (_self : LambdaB) (_dt : float) (w : World) : World :=
  { w with LambdaB_calls := pre_increment w.LambdaB_calls }

/-- Memory seen by `time_std_function`: its three local vectors and the world. A
`LambdaA *` is an index into `slotsA`, a `LambdaB *` an index into `slotsB`. -/
structure LambdaState (impl : FunctionImpl) where
  update_loop : List (function impl)
  slotsA : List LambdaA
  slotsB : List LambdaB
  world : World
deriving DecidableEq, Repr

/-- Running the closure body `update(dt)` on the captured `this`. -/
def Closure.call {impl : FunctionImpl} (f : Closure) (dt : float) (s : LambdaState impl) :
    Option (LambdaState impl) :=
  match f with
  | Closure.A this =>
    match s.slotsA[this]? with
    | some obj => some { s with slotsA := s.slotsA.set this (obj.update dt) }
    | none => none
  | Closure.B this =>
    match s.slotsB[this]? with
    | some obj => some { s with world := obj.update dt s.world }
    | none => none

/-- Modelled from the spec: the call operator of the erased callable runs the stored
closure. -/
def function.call {impl : FunctionImpl} (self : function impl) (dt : float)
    (s : LambdaState impl) : Option (LambdaState impl) :=
  self.target.call dt s

/-- One pass `for (auto & updateable : container) updateable(0.016f);`. -/
def pass_template {impl : FunctionImpl} (container : List (function impl))
    (s : LambdaState impl) : Option (LambdaState impl) :=
  for_each (fun updateable => updateable.call tick) container s

/-- `template<typename Container> void measure_only_call(const Container &, const std::string &)`. -/
def measure_only_call_template (P : Platform) {impl : FunctionImpl} (num_calls : Nat)
    (container : List (function impl)) (name : String) (s : LambdaState impl) :
    Option (LambdaState impl) :=
  let (measure, w) := ScopedMeasurer.ctor P name s.world
  (for_int (pass_template container) num_calls 0 { s with world := w }).map fun s1 =>
    { s1 with world := measure.dtor P s1.world }

/-- The locals `update_loop`, `slotsA` and `slotsB` of `time_std_function`. -/
structure LambdaFrame (impl : FunctionImpl) where
  update_loop : List (function impl)
  slotsA : List LambdaA
  slotsB : List LambdaB
deriving DecidableEq, Repr

/-- The memory made of the locals of `time_std_function` and the world. -/
def LambdaFrame.with_world {impl : FunctionImpl} (fr : LambdaFrame impl) (w : World) :
    LambdaState impl := ⟨fr.update_loop, fr.slotsA, fr.slotsB, w⟩

/-- Body of the `for` loop of `time_std_function`. The object made by `new` gets the
address of the slot that `emplace_back` is about to fill. -/
def time_std_function_body (P : Platform) (impl : FunctionImpl)
    (st : LambdaFrame impl × P.Engine) : LambdaFrame impl × P.Engine :=
  let (r, generator) := P.random_int st.2
  if r.val ≠ 0 then
    let (obj, update_loop) := LambdaA.ctor P st.1.slotsA.length st.1.update_loop
    (⟨update_loop, st.1.slotsA ++ [obj], st.1.slotsB⟩, generator)
  else
    let (obj, update_loop) := LambdaB.ctor P st.1.slotsB.length st.1.update_loop
    (⟨update_loop, st.1.slotsA, st.1.slotsB ++ [obj]⟩, generator)

/-- The locals of `time_std_function` after `n` rounds of its `for` loop. -/
def time_std_function_populate (P : Platform) (impl : FunctionImpl) (n : Nat) (seed : Int) :
    LambdaFrame impl × P.Engine :=
  (time_std_function_body P impl)^[n] (⟨[], [], []⟩, P.seed_engine seed)

/-- `template<typename std_function> void time_std_function(int seed, const std::string & name)`;
the locals are destroyed on return. -/
def time_std_function (P : Platform) (impl : FunctionImpl) (num_calls : Nat) (seed : Int)
    (name : String) (w : World) : Option World :=
  let fr := (time_std_function_populate P impl num_allocations seed).1
  (measure_only_call_template P num_calls fr.update_loop name (fr.with_world w)).map
    fun s => s.world

/-! ## main -/

/-- `int main(int argc, char * argv[])`. -/
def main (P : Platform) (DEBUG : Bool) (argc : Int) (w : World) : Option World :=
  (time_std_function P FunctionImpl.std (num_calls DEBUG) argc "std::function" w).bind fun w1 =>
  (time_std_function P FunctionImpl.func (num_calls DEBUG) argc "func::function" w1).bind fun w2 =>
  time_virtual P (num_calls DEBUG) argc w2

/-- A concrete platform for examples: the engine is a counter started at the seed, a draw
is its parity, vectors double their capacity, the clock counts nanoseconds and advances
one millisecond per reading. -/
def alternating : Platform where
  Engine := Nat
  seed_engine := fun seed => seed.toNat
  random_int := fun g => (⟨g % 2, Nat.mod_lt g (by decide)⟩, g + 1)
  reallocates := fun size => size == 0 || size == 2 ^ Nat.log2 size
  now := fun k => 1000000 * k
  duration_cast_ms := fun d => d.tdiv 1000000

/-! ## Vocabulary of the statements -/

/-- State of the engine after `k` draws. -/
def engine_after (P : Platform) (seed : Int) (k : Nat) : P.Engine :=
  (fun g => (P.random_int g).2)^[k] (P.seed_engine seed)

/-- The value of the `k`-th call `random_int(generator)`, counted from zero. -/
def draw (P : Platform) (seed : Int) (k : Nat) : Fin 2 :=
  (P.random_int (engine_after P seed k)).1

/-- The two kinds of entity. -/
inductive Variant where
  | A
  | B
deriving DecidableEq, Repr

/-- The branch taken by `if (random_int(generator))`: a non-zero draw makes a Variant-A
entity, zero a Variant-B entity. -/
def Variant.of_draw (r : Fin 2) : Variant := if r.val ≠ 0 then Variant.A else Variant.B

/-- The variant choices of the first `n` draws. -/
def variant_choices (P : Platform) (seed : Int) (n : Nat) : List Variant :=
  (List.range n).map fun k => Variant.of_draw (draw P seed k)

def Closure.variant : Closure → Variant
  | Closure.A _ => Variant.A
  | Closure.B _ => Variant.B

def Updateable.variant : Updateable → Variant
  | Updateable.A _ => Variant.A
  | Updateable.B _ => Variant.B

/-- The entity a closure captured is owned by `slotsA`, resp. `slotsB`. -/
def Closure.alive {impl : FunctionImpl} (f : Closure) (s : LambdaState impl) : Bool :=
  match f with
  | Closure.A this => decide (this < s.slotsA.length)
  | Closure.B this => decide (this < s.slotsB.length)

/-- Sum of the per-instance counters of the `LambdaA` entities. -/
def sum_calls_LambdaA (slotsA : List LambdaA) : Nat := (slotsA.map fun a => a.calls).sum

/-- The per-instance counter of an entity behind an `Updateable *`, zero for `UpdateableB`. -/
def Updateable.instance_calls : Updateable → Nat
  | Updateable.A obj => obj.calls
  | Updateable.B _ => 0

/-- Sum of the per-instance counters of the `UpdateableA` entities. -/
def sum_calls_UpdateableA (updateables : List Updateable) : Nat :=
  (updateables.map Updateable.instance_calls).sum

/-- The counter of the `LambdaA` at address `j`, if there is one. -/
def calls_at (slotsA : List LambdaA) (j : Nat) : Option Nat :=
  (slotsA[j]?).map fun a => a.calls

/-- All the counters an invocation of a closure can change. -/
def LambdaState.total {impl : FunctionImpl} (s : LambdaState impl) : Nat :=
  sum_calls_LambdaA s.slotsA + s.world.LambdaB_calls

/-- Number of handles of a container that are bound to the `LambdaA` at address `j`. -/
def handles_of_A {impl : FunctionImpl} (container : List (function impl)) (j : Nat) : Nat :=
  (container.map fun f => if f.target = Closure.A j then 1 else 0).sum

/-- Number of handles of a container that are bound to a `LambdaB`. -/
def handles_of_B {impl : FunctionImpl} (container : List (function impl)) : Nat :=
  (container.map fun f => if f.target.variant = Variant.B then 1 else 0).sum

/-- The call `update(dt)` seen on the object itself: an `UpdateableA` counts it in its
member, an `UpdateableB` has no member to change. -/
def Updateable.bump : Updateable → Updateable
  | Updateable.A obj => Updateable.A (obj.update tick)
  | Updateable.B obj => Updateable.B obj

/-- All the counters a virtual call can change. -/
def VirtualState.total (s : VirtualState) : Nat :=
  sum_calls_UpdateableA s.updateables + s.world.UpdateableB_calls

/-- Number of pointers of a container that are equal to `j`. -/
def pointers_to (container : List Nat) (j : Nat) : Nat :=
  (container.map fun p => if p = j then 1 else 0).sum

/-- Number of pointers of a container behind which `updateables` has an `UpdateableB`. -/
def pointers_to_B (updateables : List Updateable) (container : List Nat) : Nat :=
  (container.map fun p =>
    if (updateables[p]?).map Updateable.variant = some Variant.B then 1 else 0).sum

/-- The line a `ScopedMeasurer` prints when its two clock readings are the `k`-th and the
`k + 1`-th. -/
def report_line (P : Platform) (name : String) (k : Nat) : String :=
  name ++ ": " ++ toString (P.duration_cast_ms (P.now (k + 1) - P.now k)) ++ " ms" ++ "\n"

/-- Number of Variant-B choices among the first `n` draws. -/
def count_B (P : Platform) (seed : Int) (n : Nat) : Nat :=
  (variant_choices P seed n).count Variant.B

/-! ## The loops -/

theorem for_each_weighted {H S : Type} (body : H → S → Option S) (wt : H → Nat)
    (I : Nat → S → Prop) (cs : List H)
    (hstep : ∀ h ∈ cs, ∀ k s, I k s → ∃ s1, body h s = some s1 ∧ I (k + wt h) s1) :
    ∀ k s, I k s → ∃ s1, for_each body cs s = some s1 ∧ I (k + (cs.map wt).sum) s1 := by
  induction cs with
  | nil => intro k s hI; exact ⟨s, rfl, by simpa using hI⟩
  | cons h t ih =>
    intro k s hI
    obtain ⟨s1, h1, hI1⟩ := hstep h (List.mem_cons_self h t) k s hI
    obtain ⟨s2, h2, hI2⟩ :=
      ih (fun x hx => hstep x (List.mem_cons_of_mem h hx)) (k + wt h) s1 hI1
    refine ⟨s2, ?_, ?_⟩
    · simp [for_each, h1, h2]
    · simpa [Nat.add_assoc] using hI2

theorem for_int_weighted {S : Type} (body : S → Option S) (c : Nat) (I : Nat → S → Prop)
    (hbody : ∀ k s, I k s → ∃ s1, body s = some s1 ∧ I (k + c) s1) :
    ∀ n i k s, i + n ≤ INT_MAX → I k s →
      ∃ s1, for_int body n i s = some s1 ∧ I (k + n * c) s1 := by
  intro n
  induction n with
  | zero => intro i k s _ hI; exact ⟨s, rfl, by simpa using hI⟩
  | succ n ih =>
    intro i k s hi hI
    obtain ⟨s1, h1, hI1⟩ := hbody k s hI
    obtain ⟨s2, h2, hI2⟩ := ih (i + 1) (k + c) s1 (by omega) hI1
    refine ⟨s2, ?_, ?_⟩
    · have hle : i + 1 ≤ INT_MAX := by omega
      simp [for_int, h1, hle, h2]
    · have e : k + (n + 1) * c = k + c + n * c := by ring
      rw [e]; exact hI2

theorem loops_weighted {H S : Type} (body : H → S → Option S) (wt : H → Nat)
    (I : Nat → S → Prop) (cs : List H)
    (hstep : ∀ h ∈ cs, ∀ k s, I k s → ∃ s1, body h s = some s1 ∧ I (k + wt h) s1)
    (R : Nat) (hR : R ≤ INT_MAX) (s : S) (h0 : I 0 s) :
    ∃ s1, for_int (for_each body cs) R 0 s = some s1 ∧ I (R * (cs.map wt).sum) s1 := by
  have h := for_int_weighted (for_each body cs) (cs.map wt).sum I
    (for_each_weighted body wt I cs hstep) R 0 0 s (by omega) h0
  simpa using h

/-! ## Counters -/

theorem pre_increment_iterate (k c : Nat) (hc : c < SIZE_T_MOD) :
    pre_increment^[k] c = (c + k) % SIZE_T_MOD := by
  induction k with
  | zero => simp [Nat.mod_eq_of_lt hc]
  | succ k ih =>
    rw [Function.iterate_succ_apply', ih]
    unfold pre_increment SIZE_T_MOD
    omega

theorem pre_increment_iterate_zero (k : Nat) (hk : k < SIZE_T_MOD) :
    pre_increment^[k] 0 = k := by
  rw [pre_increment_iterate k 0 (by unfold SIZE_T_MOD; omega)]
  simp [Nat.mod_eq_of_lt hk]

theorem sum_calls_LambdaA_set (l : List LambdaA) (i : Nat) (obj new : LambdaA)
    (h : l[i]? = some obj) :
    sum_calls_LambdaA (l.set i new) + obj.calls = sum_calls_LambdaA l + new.calls := by
  induction l generalizing i with
  | nil => simp at h
  | cons a t ih =>
    cases i with
    | zero =>
      simp at h
      subst h
      simp [sum_calls_LambdaA]
      omega
    | succ i =>
      simp at h
      have := ih i h
      simp [sum_calls_LambdaA] at this ⊢
      omega

theorem sum_calls_UpdateableA_set (l : List Updateable) (i : Nat) (obj new : Updateable)
    (h : l[i]? = some obj) :
    sum_calls_UpdateableA (l.set i new) + obj.instance_calls
      = sum_calls_UpdateableA l + new.instance_calls := by
  induction l generalizing i with
  | nil => simp at h
  | cons a t ih =>
    cases i with
    | zero =>
      simp at h
      subst h
      simp [sum_calls_UpdateableA]
      omega
    | succ i =>
      simp at h
      have := ih i h
      simp [sum_calls_UpdateableA] at this ⊢
      omega

/-! ## One call of a closure -/

theorem Closure.call_spec {impl : FunctionImpl} (f : Closure) (s : LambdaState impl)
    (h : f.alive s = true) :
    ∃ s1, f.call tick s = some s1 ∧ s1.update_loop = s.update_loop ∧ s1.slotsB = s.slotsB ∧
      s1.slotsA.length = s.slotsA.length ∧
      (∀ j, calls_at s1.slotsA j
        = (calls_at s.slotsA j).map fun c => if f = Closure.A j then pre_increment c else c) ∧
      s1.world = { s.world with
        LambdaB_calls := if f.variant = Variant.B then pre_increment s.world.LambdaB_calls
          else s.world.LambdaB_calls } ∧
      (s.total + 1 < SIZE_T_MOD → s1.total = s.total + 1) := by
  cases f with
  | A i =>
    have hi : i < s.slotsA.length := by simpa [Closure.alive] using h
    refine ⟨{ s with slotsA := s.slotsA.set i ⟨pre_increment s.slotsA[i].calls⟩ }, ?_, rfl, rfl,
      by simp, ?_, by simp [Closure.variant], ?_⟩
    · simp [Closure.call, List.getElem?_eq_getElem hi, LambdaA.update]
    · intro j
      by_cases hj : i = j
      · subst hj
        simp [calls_at, List.getElem?_set, hi]
      · have hne : ¬ (Closure.A i = Closure.A j) := by
          intro e; exact hj (Closure.A.inj e)
        simp [calls_at, List.getElem?_set_ne hj, hne, Function.comp_def]
    · intro hlt
      have hsum := sum_calls_LambdaA_set s.slotsA i s.slotsA[i]
        ⟨pre_increment s.slotsA[i].calls⟩ (List.getElem?_eq_getElem hi)
      have hle : s.slotsA[i].calls ≤ sum_calls_LambdaA s.slotsA := by
        unfold sum_calls_LambdaA
        exact List.single_le_sum (by simp) _ (List.mem_map.2 ⟨_, List.getElem_mem hi, rfl⟩)
      simp only [LambdaState.total] at hlt ⊢
      have hpre : pre_increment s.slotsA[i].calls = s.slotsA[i].calls + 1 := by
        unfold pre_increment
        exact Nat.mod_eq_of_lt (by omega)
      simp only [hpre] at hsum ⊢
      omega
  | B i =>
    have hi : i < s.slotsB.length := by simpa [Closure.alive] using h
    refine ⟨{ s with world := { s.world with
      LambdaB_calls := pre_increment s.world.LambdaB_calls } }, ?_, rfl, rfl, rfl, ?_,
      by simp [Closure.variant], ?_⟩
    · simp [Closure.call, List.getElem?_eq_getElem hi, LambdaB.update]
    · intro j
      cases hc : calls_at s.slotsA j <;> simp
    · intro hlt
      simp only [LambdaState.total] at hlt ⊢
      have hpre : pre_increment s.world.LambdaB_calls = s.world.LambdaB_calls + 1 := by
        unfold pre_increment
        exact Nat.mod_eq_of_lt (by omega)
      simp only [hpre]
      omega

/-! ## The invocation loop over erased callables -/

theorem Closure.alive_congr {impl : FunctionImpl} (f : Closure) (s s1 : LambdaState impl)
    (hA : s1.slotsA.length = s.slotsA.length) (hB : s1.slotsB = s.slotsB) :
    f.alive s1 = f.alive s := by
  cases f <;> simp [Closure.alive, hA, hB]

theorem lambda_loop_spec {impl : FunctionImpl} (container : List (function impl))
    (s : LambdaState impl) (R : Nat)
    (halive : ∀ f ∈ container, f.target.alive s = true) (hR : R ≤ INT_MAX) :
    ∃ s1, for_int (pass_template container) R 0 s = some s1 ∧
      s1.update_loop = s.update_loop ∧ s1.slotsB = s.slotsB ∧
      s1.slotsA.length = s.slotsA.length ∧
      (∀ j, calls_at s1.slotsA j
        = (calls_at s.slotsA j).map (pre_increment^[R * handles_of_A container j])) ∧
      s1.world = { s.world with
        LambdaB_calls := pre_increment^[R * handles_of_B container] s.world.LambdaB_calls } ∧
      (s.total + R * container.length < SIZE_T_MOD →
        s1.total = s.total + R * container.length) := by
  -- the shape of the memory, kept by every call
  let Shape : LambdaState impl → Prop := fun t =>
    t.update_loop = s.update_loop ∧ t.slotsB = s.slotsB ∧ t.slotsA.length = s.slotsA.length
  have hcall : ∀ f ∈ container, ∀ t, Shape t →
      ∃ t1, f.call tick t = some t1 ∧ Shape t1 ∧
        (∀ j, calls_at t1.slotsA j = (calls_at t.slotsA j).map fun c =>
          if f.target = Closure.A j then pre_increment c else c) ∧
        t1.world = { t.world with
          LambdaB_calls := if f.target.variant = Variant.B
            then pre_increment t.world.LambdaB_calls else t.world.LambdaB_calls } ∧
        (t.total + 1 < SIZE_T_MOD → t1.total = t.total + 1) := by
    intro f hf t ht
    have hal : f.target.alive t = true := by
      rw [Closure.alive_congr f.target s t ht.2.2 ht.2.1]; exact halive f hf
    obtain ⟨t1, h1, h2, h3, h4, h5, h6, h7⟩ := Closure.call_spec f.target t hal
    exact ⟨t1, h1, ⟨h2.trans ht.1, h3.trans ht.2.1, h4.trans ht.2.2⟩, h5, h6, h7⟩
  have hS : Shape s := ⟨rfl, rfl, rfl⟩
  -- the shared counter
  obtain ⟨s1, hrun, hshape, hB⟩ := loops_weighted (fun f => function.call f tick)
    (fun f => if f.target.variant = Variant.B then 1 else 0)
    (fun k t => Shape t ∧ t.world = { s.world with
      LambdaB_calls := pre_increment^[k] s.world.LambdaB_calls })
    container
    (by
      intro f hf k t ht
      obtain ⟨t1, h1, h2, _, h4, _⟩ := hcall f hf t ht.1
      refine ⟨t1, h1, h2, ?_⟩
      rw [h4, ht.2]
      by_cases hv : f.target.variant = Variant.B
      · simp [hv, Function.iterate_succ_apply']
      · simp [hv])
    R hR s ⟨hS, rfl⟩
  refine ⟨s1, hrun, hshape.1, hshape.2.1, hshape.2.2, ?_, hB, ?_⟩
  · -- the counter of each instance
    intro j
    obtain ⟨s2, hrun2, _, hA⟩ := loops_weighted (fun f => function.call f tick)
      (fun f => if f.target = Closure.A j then 1 else 0)
      (fun k t => Shape t ∧
        calls_at t.slotsA j = (calls_at s.slotsA j).map (pre_increment^[k]))
      container
      (by
        intro f hf k t ht
        obtain ⟨t1, h1, h2, h3, _⟩ := hcall f hf t ht.1
        refine ⟨t1, h1, h2, ?_⟩
        rw [h3 j, ht.2]
        by_cases hv : f.target = Closure.A j
        · cases hc : calls_at s.slotsA j <;>
            simp [hv, -Function.iterate_succ, Function.iterate_succ_apply']
        · cases hc : calls_at s.slotsA j <;> simp [hv])
      R hR s ⟨hS, by cases hc : calls_at s.slotsA j <;> simp⟩
    have e : s2 = s1 := Option.some.inj (hrun2.symm.trans hrun)
    rw [← e]; exact hA
  · -- the sum of all counters
    obtain ⟨s2, hrun2, _, hT⟩ := loops_weighted (fun f => function.call f tick)
      (fun _ => 1)
      (fun k t => Shape t ∧ (s.total + k < SIZE_T_MOD → t.total = s.total + k))
      container
      (by
        intro f hf k t ht
        obtain ⟨t1, h1, h2, _, _, h5⟩ := hcall f hf t ht.1
        refine ⟨t1, h1, h2, ?_⟩
        intro hlt
        have hlt1 : s.total + (k + 1) < SIZE_T_MOD := hlt
        have ht2 := ht.2 (by omega)
        show t1.total = s.total + (k + 1)
        rw [h5 (by omega), ht2]; omega)
      R hR s ⟨hS, fun _ => rfl⟩
    have e : s2 = s1 := Option.some.inj (hrun2.symm.trans hrun)
    simpa [e] using hT

theorem measure_only_call_template_spec (P : Platform) {impl : FunctionImpl} (R : Nat)
    (container : List (function impl)) (name : String) (s : LambdaState impl)
    (halive : ∀ f ∈ container, f.target.alive s = true) (hR : R ≤ INT_MAX) :
    ∃ s1, measure_only_call_template P R container name s = some s1 ∧
      s1.update_loop = s.update_loop ∧ s1.slotsB = s.slotsB ∧
      s1.slotsA.length = s.slotsA.length ∧
      (∀ j, calls_at s1.slotsA j
        = (calls_at s.slotsA j).map (pre_increment^[R * handles_of_A container j])) ∧
      s1.world =
        { UpdateableB_calls := s.world.UpdateableB_calls
          LambdaB_calls := pre_increment^[R * handles_of_B container] s.world.LambdaB_calls
          cout := s.world.cout ++ report_line P name s.world.clock_reads
          clock_reads := s.world.clock_reads + 2 } ∧
      (s.total + R * container.length < SIZE_T_MOD →
        s1.total = s.total + R * container.length) := by
  obtain ⟨s1, h1, h2, h3, h4, h5, h6, h7⟩ := lambda_loop_spec container
    { s with world := { s.world with clock_reads := s.world.clock_reads + 1 } } R halive hR
  refine ⟨{ s1 with world := ScopedMeasurer.dtor P ⟨name, P.now s.world.clock_reads⟩ s1.world },
    ?_, h2, h3, h4, h5, ?_, ?_⟩
  · simp [measure_only_call_template, ScopedMeasurer.ctor, h1]
  · simp [ScopedMeasurer.dtor, h6, report_line, String.append_assoc]
  · intro hlt
    have := h7 hlt
    simpa [LambdaState.total, ScopedMeasurer.dtor] using this

/-! ## The invocation loop over virtual calls -/

theorem Updateable.variant_bump (u : Updateable) : u.bump.variant = u.variant := by
  cases u <;> rfl

theorem Updateable.bump_iterate_A (k c : Nat) :
    Updateable.bump^[k] (Updateable.A ⟨c⟩) = Updateable.A ⟨pre_increment^[k] c⟩ := by
  induction k with
  | zero => rfl
  | succ k ih =>
    rw [Function.iterate_succ_apply', Function.iterate_succ_apply', ih]
    rfl

theorem Updateable.bump_iterate_B (k : Nat) (obj : UpdateableB) :
    Updateable.bump^[k] (Updateable.B obj) = Updateable.B obj := by
  induction k with
  | zero => rfl
  | succ k ih => rw [Function.iterate_succ_apply', ih]; rfl

theorem Updateable.update_spec (p : Nat) (s : VirtualState) (hp : p < s.updateables.length) :
    ∃ s1, Updateable.update p tick s = some s1 ∧ s1.update_loop = s.update_loop ∧
      s1.updateables.map Updateable.variant = s.updateables.map Updateable.variant ∧
      (∀ j, s1.updateables[j]?
        = (s.updateables[j]?).map fun u => if p = j then u.bump else u) ∧
      s1.world = { s.world with
        UpdateableB_calls :=
          if (s.updateables[p]?).map Updateable.variant = some Variant.B
          then pre_increment s.world.UpdateableB_calls else s.world.UpdateableB_calls } ∧
      (s.total + 1 < SIZE_T_MOD → s1.total = s.total + 1) := by
  have hget : s.updateables[p]? = some s.updateables[p] := List.getElem?_eq_getElem hp
  cases hu : s.updateables[p] with
  | A obj =>
    rw [hu] at hget
    have hpoint : ∀ j, (s.updateables.set p (Updateable.A (obj.update tick)))[j]?
        = (s.updateables[j]?).map fun u => if p = j then u.bump else u := by
      intro j
      by_cases hj : p = j
      · subst hj
        simp [List.getElem?_set, hp, hget, Updateable.bump]
      · cases hc : s.updateables[j]? <;> simp [List.getElem?_set_ne hj, hj, hc]
    refine ⟨{ s with updateables := s.updateables.set p (Updateable.A (obj.update tick)) },
      ?_, rfl, ?_, hpoint, ?_, ?_⟩
    · simp [Updateable.update, hget]
    · apply List.ext_getElem?
      intro j
      simp only [List.getElem?_map, hpoint j]
      cases hc : s.updateables[j]? with
      | none => rfl
      | some u =>
        by_cases hj : p = j
        · simp [hj, Updateable.variant_bump]
        · simp [hj]
    · simp [hget, Updateable.variant]
    · intro hlt
      have hsum := sum_calls_UpdateableA_set s.updateables p (Updateable.A obj)
        (Updateable.A (obj.update tick)) hget
      have hle : obj.calls ≤ sum_calls_UpdateableA s.updateables := by
        unfold sum_calls_UpdateableA
        exact List.single_le_sum (by simp) _
          (List.mem_map.2 ⟨Updateable.A obj, by rw [← hu]; exact List.getElem_mem hp, rfl⟩)
      simp only [VirtualState.total] at hlt ⊢
      have hpre : pre_increment obj.calls = obj.calls + 1 := by
        unfold pre_increment
        exact Nat.mod_eq_of_lt (by omega)
      have hupd : obj.update tick = ⟨obj.calls + 1⟩ := by
        simp only [UpdateableA.update, hpre]
      rw [hupd] at hsum ⊢
      simp only [Updateable.instance_calls] at hsum
      omega
  | B obj =>
    rw [hu] at hget
    refine ⟨{ s with world := obj.update tick s.world }, ?_, rfl, rfl, ?_, ?_, ?_⟩
    · simp [Updateable.update, hget]
    · intro j
      by_cases hj : p = j
      · subst hj
        simp [hget, Updateable.bump]
      · cases hc : s.updateables[j]? <;> simp [hj]
    · simp [hget, Updateable.variant, UpdateableB.update]
    · intro hlt
      simp only [VirtualState.total, UpdateableB.update] at hlt ⊢
      have hpre : pre_increment s.world.UpdateableB_calls = s.world.UpdateableB_calls + 1 := by
        unfold pre_increment
        exact Nat.mod_eq_of_lt (by omega)
      simp only [hpre]
      omega

theorem virtual_loop_spec (container : List Nat) (s : VirtualState) (R : Nat)
    (halive : ∀ p ∈ container, p < s.updateables.length) (hR : R ≤ INT_MAX) :
    ∃ s1, for_int (pass_virtual container) R 0 s = some s1 ∧
      s1.update_loop = s.update_loop ∧
      s1.updateables.map Updateable.variant = s.updateables.map Updateable.variant ∧
      (∀ j, s1.updateables[j]?
        = (s.updateables[j]?).map (Updateable.bump^[R * pointers_to container j])) ∧
      s1.world = { s.world with
        UpdateableB_calls :=
          pre_increment^[R * pointers_to_B s.updateables container] s.world.UpdateableB_calls } ∧
      (s.total + R * container.length < SIZE_T_MOD →
        s1.total = s.total + R * container.length) := by
  let Shape : VirtualState → Prop := fun t =>
    t.update_loop = s.update_loop ∧
      t.updateables.map Updateable.variant = s.updateables.map Updateable.variant
  have hlen : ∀ t, Shape t → t.updateables.length = s.updateables.length := by
    intro t ht
    have := congrArg List.length ht.2
    simpa using this
  have hvar : ∀ t, Shape t → ∀ p : Nat, (t.updateables[p]?).map Updateable.variant
      = (s.updateables[p]?).map Updateable.variant := by
    intro t ht p
    rw [← List.getElem?_map, ← List.getElem?_map, ht.2]
  have hcall : ∀ p ∈ container, ∀ t, Shape t →
      ∃ t1, Updateable.update p tick t = some t1 ∧ Shape t1 ∧
        (∀ j, t1.updateables[j]?
          = (t.updateables[j]?).map fun u => if p = j then u.bump else u) ∧
        t1.world = { t.world with
          UpdateableB_calls :=
            if (s.updateables[p]?).map Updateable.variant = some Variant.B
            then pre_increment t.world.UpdateableB_calls else t.world.UpdateableB_calls } ∧
        (t.total + 1 < SIZE_T_MOD → t1.total = t.total + 1) := by
    intro p hp t ht
    obtain ⟨t1, h1, h2, h3, h4, h5, h6⟩ :=
      Updateable.update_spec p t (by rw [hlen t ht]; exact halive p hp)
    refine ⟨t1, h1, ⟨h2.trans ht.1, h3.trans ht.2⟩, h4, ?_, h6⟩
    rw [h5, hvar t ht p]
  have hS : Shape s := ⟨rfl, rfl⟩
  obtain ⟨s1, hrun, hshape, hB⟩ := loops_weighted (fun p => Updateable.update p tick)
    (fun p => if (s.updateables[p]?).map Updateable.variant = some Variant.B then 1 else 0)
    (fun k t => Shape t ∧ t.world = { s.world with
      UpdateableB_calls := pre_increment^[k] s.world.UpdateableB_calls })
    container
    (by
      intro p hp k t ht
      obtain ⟨t1, h1, h2, _, h4, _⟩ := hcall p hp t ht.1
      refine ⟨t1, h1, h2, ?_⟩
      rw [h4, ht.2]
      by_cases hv : (s.updateables[p]?).map Updateable.variant = some Variant.B
      · simp [hv, -Function.iterate_succ, Function.iterate_succ_apply']
      · simp [hv])
    R hR s ⟨hS, rfl⟩
  refine ⟨s1, hrun, hshape.1, hshape.2, ?_, hB, ?_⟩
  · intro j
    obtain ⟨s2, hrun2, _, hA⟩ := loops_weighted (fun p => Updateable.update p tick)
      (fun p => if p = j then 1 else 0)
      (fun k t => Shape t ∧
        t.updateables[j]? = (s.updateables[j]?).map (Updateable.bump^[k]))
      container
      (by
        intro p hp k t ht
        obtain ⟨t1, h1, h2, h3, _⟩ := hcall p hp t ht.1
        refine ⟨t1, h1, h2, ?_⟩
        rw [h3 j, ht.2]
        by_cases hv : p = j
        · cases hc : s.updateables[j]? <;>
            simp [hv, -Function.iterate_succ, Function.iterate_succ_apply']
        · cases hc : s.updateables[j]? <;> simp [hv])
      R hR s ⟨hS, by cases hc : s.updateables[j]? <;> simp⟩
    have e : s2 = s1 := Option.some.inj (hrun2.symm.trans hrun)
    rw [← e]; exact hA
  · obtain ⟨s2, hrun2, _, hT⟩ := loops_weighted (fun p => Updateable.update p tick)
      (fun _ => 1)
      (fun k t => Shape t ∧ (s.total + k < SIZE_T_MOD → t.total = s.total + k))
      container
      (by
        intro p hp k t ht
        obtain ⟨t1, h1, h2, _, _, h5⟩ := hcall p hp t ht.1
        refine ⟨t1, h1, h2, ?_⟩
        intro hlt
        have hlt1 : s.total + (k + 1) < SIZE_T_MOD := hlt
        have ht2 := ht.2 (by omega)
        show t1.total = s.total + (k + 1)
        rw [h5 (by omega), ht2]; omega)
      R hR s ⟨hS, fun _ => rfl⟩
    have e : s2 = s1 := Option.some.inj (hrun2.symm.trans hrun)
    simpa [e] using hT

theorem measure_only_call_virtual_spec (P : Platform) (R : Nat) (container : List Nat)
    (s : VirtualState) (halive : ∀ p ∈ container, p < s.updateables.length)
    (hR : R ≤ INT_MAX) :
    ∃ s1, measure_only_call_virtual P R container s = some s1 ∧
      s1.update_loop = s.update_loop ∧
      s1.updateables.map Updateable.variant = s.updateables.map Updateable.variant ∧
      (∀ j, s1.updateables[j]?
        = (s.updateables[j]?).map (Updateable.bump^[R * pointers_to container j])) ∧
      s1.world =
        { UpdateableB_calls :=
            pre_increment^[R * pointers_to_B s.updateables container] s.world.UpdateableB_calls
          LambdaB_calls := s.world.LambdaB_calls
          cout := s.world.cout ++ report_line P "virtual function" s.world.clock_reads
          clock_reads := s.world.clock_reads + 2 } ∧
      (s.total + R * container.length < SIZE_T_MOD →
        s1.total = s.total + R * container.length) := by
  obtain ⟨s1, h1, h2, h3, h4, h5, h6⟩ := virtual_loop_spec container
    { s with world := { s.world with clock_reads := s.world.clock_reads + 1 } } R halive hR
  refine ⟨{ s1 with world :=
      ScopedMeasurer.dtor P ⟨"virtual function", P.now s.world.clock_reads⟩ s1.world },
    ?_, h2, h3, h4, ?_, ?_⟩
  · simp [measure_only_call_virtual, ScopedMeasurer.ctor, h1]
  · simp [ScopedMeasurer.dtor, h5, report_line, String.append_assoc]
  · intro hlt
    have := h6 hlt
    simpa [VirtualState.total, ScopedMeasurer.dtor] using this

/-! ## The population built by `time_std_function` -/

theorem function.move_eq {impl : FunctionImpl} (f : function impl) : f.move = f := rfl

theorem emplace_back_eq (P : Platform) {impl : FunctionImpl} (l : List (function impl))
    (f : Closure) : emplace_back P l f = l ++ [⟨f⟩] := by
  have hmap : l.map function.move = l := by
    induction l with
    | nil => rfl
    | cons a t ih => simp [List.map, function.move_eq, ih]
  unfold emplace_back
  split <;> simp [hmap, function.ctor]

theorem time_std_function_body_eq (P : Platform) (impl : FunctionImpl)
    (st : LambdaFrame impl × P.Engine) :
    time_std_function_body P impl st =
      (if (P.random_int st.2).1.val ≠ 0 then
        ⟨st.1.update_loop ++ [⟨Closure.A st.1.slotsA.length⟩], st.1.slotsA ++ [⟨0⟩], st.1.slotsB⟩
      else
        ⟨st.1.update_loop ++ [⟨Closure.B st.1.slotsB.length⟩], st.1.slotsA, st.1.slotsB ++ [⟨⟩]⟩,
      (P.random_int st.2).2) := by
  unfold time_std_function_body
  rcases h : P.random_int st.2 with ⟨r, g⟩
  by_cases hr : r.val ≠ 0
  · simp only [LambdaA.ctor, emplace_back_eq]
    rw [if_pos hr, if_pos hr]
  · simp only [LambdaB.ctor, emplace_back_eq]
    rw [if_neg hr, if_neg hr]

theorem time_std_function_populate_step (P : Platform) (impl : FunctionImpl) (n : Nat)
    (seed : Int) :
    time_std_function_populate P impl (n + 1) seed
      = time_std_function_body P impl (time_std_function_populate P impl n seed) := by
  unfold time_std_function_populate
  rw [Function.iterate_succ_apply']

theorem time_std_function_populate_engine (P : Platform) (impl : FunctionImpl) (n : Nat)
    (seed : Int) : (time_std_function_populate P impl n seed).2 = engine_after P seed n := by
  induction n with
  | zero => rfl
  | succ n ih =>
    rw [time_std_function_populate_step, time_std_function_body_eq, ih]
    unfold engine_after
    rw [Function.iterate_succ_apply']

theorem time_std_function_populate_succ (P : Platform) (impl : FunctionImpl) (n : Nat)
    (seed : Int) :
    (time_std_function_populate P impl (n + 1) seed).1 =
      if (draw P seed n).val ≠ 0 then
        ⟨(time_std_function_populate P impl n seed).1.update_loop
            ++ [⟨Closure.A (time_std_function_populate P impl n seed).1.slotsA.length⟩],
          (time_std_function_populate P impl n seed).1.slotsA ++ [⟨0⟩],
          (time_std_function_populate P impl n seed).1.slotsB⟩
      else
        ⟨(time_std_function_populate P impl n seed).1.update_loop
            ++ [⟨Closure.B (time_std_function_populate P impl n seed).1.slotsB.length⟩],
          (time_std_function_populate P impl n seed).1.slotsA,
          (time_std_function_populate P impl n seed).1.slotsB ++ [⟨⟩]⟩ := by
  rw [time_std_function_populate_step, time_std_function_body_eq,
    time_std_function_populate_engine]
  rfl

theorem variant_choices_succ (P : Platform) (seed : Int) (n : Nat) :
    variant_choices P seed (n + 1)
      = variant_choices P seed n ++ [Variant.of_draw (draw P seed n)] := by
  simp [variant_choices, List.range_succ]

theorem time_std_function_populate_inv (P : Platform) (impl : FunctionImpl) (n : Nat)
    (seed : Int) (fr : LambdaFrame impl)
    (hfr : fr = (time_std_function_populate P impl n seed).1) :
    fr.update_loop.length = n ∧ fr.slotsA.length + fr.slotsB.length = n ∧
      (∀ a ∈ fr.slotsA, a.calls = 0) ∧
      (∀ j, handles_of_A fr.update_loop j = if j < fr.slotsA.length then 1 else 0) ∧
      handles_of_B fr.update_loop = fr.slotsB.length ∧
      (∀ f ∈ fr.update_loop, ∀ w, f.target.alive (fr.with_world w) = true) ∧
      fr.update_loop.map (fun f => f.target.variant) = variant_choices P seed n := by
  induction n generalizing fr with
  | zero =>
    subst hfr
    refine ⟨rfl, rfl, ?_, ?_, rfl, ?_, rfl⟩
    · intro a ha; cases ha
    · intro j; rfl
    · intro f hf; cases hf
  | succ n ih =>
    obtain ⟨h1, h2, h3, h4, h5, h6, h7⟩ := ih _ rfl
    rw [time_std_function_populate_succ] at hfr
    by_cases hr : (draw P seed n).val ≠ 0
    · rw [if_pos hr] at hfr
      subst hfr
      refine ⟨by simp [h1], by simp; omega, ?_, ?_, ?_, ?_, ?_⟩
      · intro a ha
        rcases List.mem_append.1 ha with ha | ha
        · exact h3 a ha
        · simp at ha; subst ha; rfl
      · intro j
        have := h4 j
        simp only [handles_of_A, List.map_append, List.sum_append, List.map_cons, List.map_nil,
          List.sum_cons, List.sum_nil, List.length_append, List.length_singleton,
          Closure.A.injEq] at this ⊢
        rw [this]
        split_ifs <;> omega
      · simpa [handles_of_B, Closure.variant] using h5
      · intro f hf w
        rcases List.mem_append.1 hf with hf | hf
        · have := h6 f hf w
          cases hc : f.target with
          | A i =>
            rw [hc] at this
            simp [Closure.alive, LambdaFrame.with_world] at this ⊢
            omega
          | B i =>
            rw [hc] at this
            simpa [Closure.alive, LambdaFrame.with_world] using this
        · simp at hf; subst hf
          simp [Closure.alive, LambdaFrame.with_world]
      · rw [variant_choices_succ, ← h7]
        simp [Variant.of_draw, hr, Closure.variant]
    · rw [if_neg hr] at hfr
      subst hfr
      refine ⟨by simp [h1], by simp; omega, h3, ?_, ?_, ?_, ?_⟩
      · intro j
        have := h4 j
        simpa [handles_of_A] using this
      · simp [handles_of_B, Closure.variant] at h5 ⊢
        rw [h5]
      · intro f hf w
        rcases List.mem_append.1 hf with hf | hf
        · have := h6 f hf w
          cases hc : f.target with
          | A i =>
            rw [hc] at this
            simpa [Closure.alive, LambdaFrame.with_world] using this
          | B i =>
            rw [hc] at this
            simp [Closure.alive, LambdaFrame.with_world] at this ⊢
            omega
        · simp at hf; subst hf
          simp [Closure.alive, LambdaFrame.with_world]
      · rw [variant_choices_succ, ← h7]
        simp [Variant.of_draw, hr, Closure.variant]

theorem time_std_function_populate_get (P : Platform) (impl : FunctionImpl) (n k : Nat)
    (seed : Int) (hk : k < n) :
    (time_std_function_populate P impl n seed).1.update_loop[k]? =
        some ⟨if (draw P seed k).val ≠ 0
          then Closure.A (time_std_function_populate P impl k seed).1.slotsA.length
          else Closure.B (time_std_function_populate P impl k seed).1.slotsB.length⟩ ∧
      ((draw P seed k).val ≠ 0 →
        (time_std_function_populate P impl k seed).1.slotsA.length
          < (time_std_function_populate P impl n seed).1.slotsA.length) ∧
      ((draw P seed k).val = 0 →
        (time_std_function_populate P impl k seed).1.slotsB.length
          < (time_std_function_populate P impl n seed).1.slotsB.length) := by
  induction n with
  | zero => omega
  | succ n ih =>
    have hlen := (time_std_function_populate_inv P impl n seed _ rfl).1
    rw [time_std_function_populate_succ]
    rcases Nat.lt_succ_iff_lt_or_eq.1 hk with hlt | heq
    · obtain ⟨h1, h2, h3⟩ := ih hlt
      by_cases hr : (draw P seed n).val ≠ 0
      · rw [if_pos hr]
        refine ⟨?_, ?_, ?_⟩
        · rw [List.getElem?_append_left (by omega)]; exact h1
        · intro h; have := h2 h; simp; omega
        · intro h; exact h3 h
      · rw [if_neg hr]
        refine ⟨?_, ?_, ?_⟩
        · rw [List.getElem?_append_left (by omega)]; exact h1
        · intro h; exact h2 h
        · intro h; have := h3 h; simp; omega
    · subst heq
      by_cases hr : (draw P seed k).val ≠ 0
      · rw [if_pos hr, if_pos hr]
        refine ⟨?_, ?_, ?_⟩
        · have := List.getElem?_concat_length
            (time_std_function_populate P impl k seed).1.update_loop
            (⟨Closure.A (time_std_function_populate P impl k seed).1.slotsA.length⟩ :
              function impl)
          rw [hlen] at this
          exact this
        · intro _; simp
        · intro h; exact absurd h hr
      · rw [if_neg hr, if_neg hr]
        refine ⟨?_, ?_, ?_⟩
        · have := List.getElem?_concat_length
            (time_std_function_populate P impl k seed).1.update_loop
            (⟨Closure.B (time_std_function_populate P impl k seed).1.slotsB.length⟩ :
              function impl)
          rw [hlen] at this
          exact this
        · intro h; exact absurd h hr
        · intro _; simp

/-! ## The population built by `time_virtual` -/

theorem time_virtual_body_eq (P : Platform) (st : VirtualFrame × P.Engine) :
    time_virtual_body P st =
      (⟨st.1.updateables ++ [if (P.random_int st.2).1.val ≠ 0
          then Updateable.A ⟨0⟩ else Updateable.B ⟨⟩],
        st.1.update_loop ++ [st.1.updateables.length]⟩,
      (P.random_int st.2).2) := by
  unfold time_virtual_body
  rcases h : P.random_int st.2 with ⟨r, g⟩
  by_cases hr : r.val ≠ 0
  · simp [hr, UpdateableA.ctor]
  · simp [hr]

theorem time_virtual_populate_step (P : Platform) (n : Nat) (seed : Int) :
    time_virtual_populate P (n + 1) seed
      = time_virtual_body P (time_virtual_populate P n seed) := by
  unfold time_virtual_populate
  rw [Function.iterate_succ_apply']

theorem time_virtual_populate_engine (P : Platform) (n : Nat) (seed : Int) :
    (time_virtual_populate P n seed).2 = engine_after P seed n := by
  induction n with
  | zero => rfl
  | succ n ih =>
    rw [time_virtual_populate_step, time_virtual_body_eq, ih]
    unfold engine_after
    rw [Function.iterate_succ_apply']

theorem time_virtual_populate_succ (P : Platform) (n : Nat) (seed : Int) :
    (time_virtual_populate P (n + 1) seed).1 =
      ⟨(time_virtual_populate P n seed).1.updateables ++ [if (draw P seed n).val ≠ 0
          then Updateable.A ⟨0⟩ else Updateable.B ⟨⟩],
        (time_virtual_populate P n seed).1.update_loop
          ++ [(time_virtual_populate P n seed).1.updateables.length]⟩ := by
  rw [time_virtual_populate_step, time_virtual_body_eq, time_virtual_populate_engine]
  rfl

theorem time_virtual_populate_inv (P : Platform) (n : Nat) (seed : Int) :
    (time_virtual_populate P n seed).1.update_loop = List.range n ∧
      (time_virtual_populate P n seed).1.updateables
        = (List.range n).map fun k =>
            if (draw P seed k).val ≠ 0 then Updateable.A ⟨0⟩ else Updateable.B ⟨⟩ := by
  induction n with
  | zero => exact ⟨rfl, rfl⟩
  | succ n ih =>
    rw [time_virtual_populate_succ, ih.1, ih.2]
    simp [List.range_succ]

theorem pointers_to_range (n j : Nat) :
    pointers_to (List.range n) j = if j < n then 1 else 0 := by
  induction n with
  | zero => rfl
  | succ n ih =>
    simp only [pointers_to, List.range_succ, List.map_append, List.sum_append, List.map_cons,
      List.map_nil, List.sum_cons, List.sum_nil] at ih ⊢
    rw [ih]
    split_ifs <;> omega

theorem pointers_to_B_range (l : List Updateable) :
    pointers_to_B l (List.range l.length)
      = l.countP fun u => decide (u.variant = Variant.B) := by
  induction l using List.reverseRecOn with
  | nil => rfl
  | append_singleton l x ih =>
    have hcongr : pointers_to_B (l ++ [x]) (List.range l.length)
        = pointers_to_B l (List.range l.length) := by
      unfold pointers_to_B
      congr 1
      apply List.map_congr_left
      intro p hp
      rw [List.getElem?_append_left (List.mem_range.1 hp)]
    have hlast : pointers_to_B (l ++ [x]) [l.length]
        = if x.variant = Variant.B then 1 else 0 := by
      simp [pointers_to_B]
    have hsplit : pointers_to_B (l ++ [x]) (List.range (l ++ [x]).length)
        = pointers_to_B (l ++ [x]) (List.range l.length)
          + pointers_to_B (l ++ [x]) [l.length] := by
      simp [pointers_to_B, List.range_succ]
    rw [hsplit, hcongr, hlast, ih, List.countP_append]
    by_cases hx : x.variant = Variant.B <;> simp [hx]

theorem sum_calls_LambdaA_zero (l : List LambdaA) (h : ∀ a ∈ l, a.calls = 0) :
    sum_calls_LambdaA l = 0 := by
  unfold sum_calls_LambdaA
  apply List.sum_eq_zero
  intro x hx
  obtain ⟨a, ha, rfl⟩ := List.mem_map.1 hx
  exact h a ha

theorem sum_calls_UpdateableA_zero (l : List Updateable) (h : ∀ u ∈ l, u.instance_calls = 0) :
    sum_calls_UpdateableA l = 0 := by
  unfold sum_calls_UpdateableA
  apply List.sum_eq_zero
  intro x hx
  obtain ⟨a, ha, rfl⟩ := List.mem_map.1 hx
  exact h a ha

theorem built_LambdaA_calls (P : Platform) (impl : FunctionImpl) (n : Nat) (seed : Int)
    (name : String) (w : World) (R : Nat) (hR : R ≤ INT_MAX) :
    ∃ s1, measure_only_call_template P R
        (time_std_function_populate P impl n seed).1.update_loop name
        ((time_std_function_populate P impl n seed).1.with_world w) = some s1 ∧
      s1.update_loop = (time_std_function_populate P impl n seed).1.update_loop ∧
      s1.slotsB = (time_std_function_populate P impl n seed).1.slotsB ∧
      s1.slotsA.length = (time_std_function_populate P impl n seed).1.slotsA.length ∧
      (∀ a ∈ s1.slotsA, a.calls = R) ∧
      s1.world =
        { UpdateableB_calls := w.UpdateableB_calls
          LambdaB_calls :=
            pre_increment^[R * (time_std_function_populate P impl n seed).1.slotsB.length]
              w.LambdaB_calls
          cout := w.cout ++ report_line P name w.clock_reads
          clock_reads := w.clock_reads + 2 } := by
  obtain ⟨_, _, h3, h4, h5, h6, _⟩ := time_std_function_populate_inv P impl n seed _ rfl
  obtain ⟨s1, g1, g2, g3, g4, g5, g6, _⟩ := measure_only_call_template_spec P R
    (time_std_function_populate P impl n seed).1.update_loop name
    ((time_std_function_populate P impl n seed).1.with_world w)
    (fun f hf => h6 f hf w) hR
  refine ⟨s1, g1, g2, g3, g4, ?_, ?_⟩
  · intro a ha
    obtain ⟨j, hj⟩ := List.mem_iff_getElem?.1 ha
    have hjlt : j < s1.slotsA.length := by
      by_contra hcon
      rw [List.getElem?_eq_none (by omega)] at hj
      cases hj
    rw [g4] at hjlt
    have hjlt0 : j < (time_std_function_populate P impl n seed).1.slotsA.length := hjlt
    have hc := g5 j
    have hold : calls_at ((time_std_function_populate P impl n seed).1.with_world w).slotsA j
        = some 0 := by
      show calls_at (time_std_function_populate P impl n seed).1.slotsA j = some 0
      unfold calls_at
      rw [List.getElem?_eq_getElem hjlt0]
      simp [h3 _ (List.getElem_mem hjlt0)]
    rw [hold, h4 j, if_pos hjlt0] at hc
    simp only [calls_at, hj, Option.map_some', Nat.mul_one] at hc
    have hR' : R < SIZE_T_MOD := by
      unfold INT_MAX at hR; unfold SIZE_T_MOD; omega
    rw [pre_increment_iterate_zero R hR'] at hc
    exact Option.some.inj hc
  · rw [g6, h5]
    rfl

theorem built_UpdateableA_calls (P : Platform) (n : Nat) (seed : Int) (w : World) (R : Nat)
    (hR : R ≤ INT_MAX) :
    ∃ vs1, measure_only_call_virtual P R (time_virtual_populate P n seed).1.update_loop
        ((time_virtual_populate P n seed).1.with_world w) = some vs1 ∧
      vs1.update_loop = (time_virtual_populate P n seed).1.update_loop ∧
      vs1.updateables.map Updateable.variant
        = (time_virtual_populate P n seed).1.updateables.map Updateable.variant ∧
      (∀ obj, Updateable.A obj ∈ vs1.updateables → obj.calls = R) ∧
      vs1.world =
        { UpdateableB_calls :=
            pre_increment^[R * (time_virtual_populate P n seed).1.updateables.countP
              fun u => decide (u.variant = Variant.B)] w.UpdateableB_calls
          LambdaB_calls := w.LambdaB_calls
          cout := w.cout ++ report_line P "virtual function" w.clock_reads
          clock_reads := w.clock_reads + 2 } := by
  obtain ⟨h1, h2⟩ := time_virtual_populate_inv P n seed
  have hlen : (time_virtual_populate P n seed).1.updateables.length = n := by
    rw [h2]; simp
  obtain ⟨vs1, g1, g2, g3, g4, g5, _⟩ := measure_only_call_virtual_spec P R
    (time_virtual_populate P n seed).1.update_loop
    ((time_virtual_populate P n seed).1.with_world w)
    (by
      intro p hp
      rw [h1] at hp
      show p < (time_virtual_populate P n seed).1.updateables.length
      rw [hlen]; exact List.mem_range.1 hp) hR
  refine ⟨vs1, g1, g2, g3, ?_, ?_⟩
  · intro obj hobj
    obtain ⟨j, hj⟩ := List.mem_iff_getElem?.1 hobj
    have hc := g4 j
    rw [hj] at hc
    have hold : ((time_virtual_populate P n seed).1.with_world w).updateables[j]?
        = (time_virtual_populate P n seed).1.updateables[j]? := rfl
    rw [hold, h1, pointers_to_range, h2, List.getElem?_map] at hc
    by_cases hjn : j < n
    · rw [List.getElem?_range hjn, if_pos hjn] at hc
      simp only [Option.map_some', Nat.mul_one] at hc
      have hR' : R < SIZE_T_MOD := by
        unfold INT_MAX at hR; unfold SIZE_T_MOD; omega
      by_cases hr : (draw P seed j).val ≠ 0
      · rw [if_pos hr, Updateable.bump_iterate_A, pre_increment_iterate_zero R hR'] at hc
        have := Option.some.inj hc
        cases this
        rfl
      · rw [if_neg hr, Updateable.bump_iterate_B] at hc
        have := Option.some.inj hc
        cases this
    · rw [List.getElem?_eq_none (by simpa using Nat.le_of_not_lt hjn)] at hc
      cases hc
  · rw [g5]
    have hb : pointers_to_B ((time_virtual_populate P n seed).1.with_world w).updateables
        (time_virtual_populate P n seed).1.update_loop
        = (time_virtual_populate P n seed).1.updateables.countP
            fun u => decide (u.variant = Variant.B) := by
      show pointers_to_B (time_virtual_populate P n seed).1.updateables
        (time_virtual_populate P n seed).1.update_loop = _
      rw [h1, ← pointers_to_B_range, hlen]
    rw [hb]
    rfl

theorem LambdaA.eq_of_calls_zero (a : LambdaA) (h : a.calls = 0) : a = ⟨0⟩ := by
  cases a
  simp only at h
  rw [h]

theorem handles_of_B_eq_count {impl : FunctionImpl} (l : List (function impl)) :
    handles_of_B l = (l.map fun f => f.target.variant).count Variant.B := by
  induction l with
  | nil => rfl
  | cons a t ih =>
    have hcons : handles_of_B (a :: t)
        = (if a.target.variant = Variant.B then 1 else 0) + handles_of_B t := by
      simp [handles_of_B]
    rw [hcons, ih, List.map_cons, List.count_cons]
    by_cases h : a.target.variant = Variant.B
    · simp [h]; omega
    · have h2 : ¬ ((a.target.variant == Variant.B) = true) := by simpa using h
      simp [h, h2]

theorem slotsB_length_eq_count_B (P : Platform) (impl : FunctionImpl) (n : Nat) (seed : Int) :
    (time_std_function_populate P impl n seed).1.slotsB.length = count_B P seed n := by
  obtain ⟨_, _, _, _, h5, _, h7⟩ := time_std_function_populate_inv P impl n seed _ rfl
  rw [← h5, handles_of_B_eq_count, h7]
  rfl

theorem updateables_variants (P : Platform) (n : Nat) (seed : Int) :
    (time_virtual_populate P n seed).1.updateables.map Updateable.variant
      = variant_choices P seed n := by
  rw [(time_virtual_populate_inv P n seed).2, List.map_map]
  unfold variant_choices
  apply List.map_congr_left
  intro k _
  by_cases hr : (draw P seed k).val ≠ 0
  · simp only [Function.comp_apply, Variant.of_draw, if_pos hr]; rfl
  · simp only [Function.comp_apply, Variant.of_draw, if_neg hr]; rfl

theorem updateables_countP_eq_count_B (P : Platform) (n : Nat) (seed : Int) :
    ((time_virtual_populate P n seed).1.updateables.countP
      fun u => decide (u.variant = Variant.B)) = count_B P seed n := by
  unfold count_B
  rw [← updateables_variants, List.count, List.countP_map]
  congr 1

theorem count_B_le (P : Platform) (seed : Int) (n : Nat) : count_B P seed n ≤ n := by
  have h := List.count_le_length Variant.B (variant_choices P seed n)
  simpa [count_B, variant_choices] using h

theorem num_calls_le_INT_MAX (DEBUG : Bool) : num_calls DEBUG ≤ INT_MAX := by
  cases DEBUG <;> decide

theorem time_std_function_spec (P : Platform) (impl : FunctionImpl) (R : Nat) (seed : Int)
    (name : String) (w : World) (hR : R ≤ INT_MAX) :
    time_std_function P impl R seed name w = some
      { UpdateableB_calls := w.UpdateableB_calls
        LambdaB_calls := pre_increment^[R * count_B P seed num_allocations] w.LambdaB_calls
        cout := w.cout ++ report_line P name w.clock_reads
        clock_reads := w.clock_reads + 2 } := by
  obtain ⟨s1, g1, _, _, _, _, g6⟩ :=
    built_LambdaA_calls P impl num_allocations seed name w R hR
  unfold time_std_function
  simp only [g1, Option.map_some', g6, slotsB_length_eq_count_B]

theorem time_virtual_spec (P : Platform) (R : Nat) (seed : Int) (w : World)
    (hR : R ≤ INT_MAX) :
    time_virtual P R seed w = some
      { UpdateableB_calls :=
          pre_increment^[R * count_B P seed num_allocations] w.UpdateableB_calls
        LambdaB_calls := w.LambdaB_calls
        cout := w.cout ++ report_line P "virtual function" w.clock_reads
        clock_reads := w.clock_reads + 2 } := by
  obtain ⟨s1, g1, _, _, _, g5⟩ := built_UpdateableA_calls P num_allocations seed w R hR
  unfold time_virtual
  simp only [g1, Option.map_some', g5, updateables_countP_eq_count_B]

theorem time_std_function_world (P : Platform) (impl : FunctionImpl) (R : Nat) (seed : Int)
    (name : String) (w : World) (hR : R ≤ INT_MAX) :
    ∃ w1, time_std_function P impl R seed name w = some w1 ∧
      w1.LambdaB_calls = pre_increment^[R * count_B P seed num_allocations] w.LambdaB_calls ∧
      w1.UpdateableB_calls = w.UpdateableB_calls := by
  refine ⟨_, time_std_function_spec P impl R seed name w hR, ?_, ?_⟩ <;> simp only

theorem time_virtual_world (P : Platform) (R : Nat) (seed : Int) (w : World)
    (hR : R ≤ INT_MAX) :
    ∃ w1, time_virtual P R seed w = some w1 ∧
      w1.UpdateableB_calls
        = pre_increment^[R * count_B P seed num_allocations] w.UpdateableB_calls ∧
      w1.LambdaB_calls = w.LambdaB_calls := by
  refine ⟨_, time_virtual_spec P R seed w hR, ?_, ?_⟩ <;> simp only

theorem run_calls_bound (P : Platform) (seed : Int) (DEBUG : Bool) :
    num_calls DEBUG * count_B P seed num_allocations ≤ 100000000 := by
  have h1 : count_B P seed num_allocations ≤ 1000 := count_B_le P seed num_allocations
  have h2 : num_calls DEBUG ≤ 100000 := by cases DEBUG <;> decide
  calc num_calls DEBUG * count_B P seed num_allocations
      ≤ 100000 * 1000 := Nat.mul_le_mul h2 h1
    _ = 100000000 := by norm_num

theorem built_UpdateableA_zero (P : Platform) (n : Nat) (seed : Int) (obj : UpdateableA)
    (h : Updateable.A obj ∈ (time_virtual_populate P n seed).1.updateables) :
    obj.calls = 0 := by
  rw [(time_virtual_populate_inv P n seed).2] at h
  obtain ⟨k, _, hk⟩ := List.mem_map.1 h
  by_cases hr : (draw P seed k).val ≠ 0
  · rw [if_pos hr] at hk
    cases hk
    rfl
  · rw [if_neg hr] at hk
    cases hk

/-! ## The example platform -/

theorem alternating_engine_after (seed : Int) (k : Nat) :
    engine_after alternating seed k = seed.toNat + k := by
  induction k with
  | zero => rfl
  | succ k ih =>
    unfold engine_after at ih ⊢
    rw [Function.iterate_succ_apply', ih]
    rfl

theorem alternating_draw (seed : Int) (k : Nat) :
    (draw alternating seed k).val = (seed.toNat + k) % 2 := by
  unfold draw
  rw [alternating_engine_after]
  rfl

theorem count_B_succ (P : Platform) (seed : Int) (n : Nat) :
    count_B P seed (n + 1)
      = count_B P seed n + if (draw P seed n).val ≠ 0 then 0 else 1 := by
  unfold count_B
  rw [variant_choices_succ, List.count_append]
  by_cases hr : (draw P seed n).val ≠ 0
  · simp [Variant.of_draw, hr]
  · simp [Variant.of_draw, hr]

theorem alternating_count_B (m : Nat) : count_B alternating 1 (2 * m) = m := by
  induction m with
  | zero => rfl
  | succ m ih =>
    have e : 2 * (m + 1) = 2 * m + 1 + 1 := by ring
    rw [e, count_B_succ, count_B_succ, ih, alternating_draw, alternating_draw]
    have h1 : ((1 : Int).toNat + 2 * m) % 2 = 1 := by
      have : (1 : Int).toNat = 1 := rfl
      omega
    have h2 : ((1 : Int).toNat + (2 * m + 1)) % 2 = 0 := by
      have : (1 : Int).toNat = 1 := rfl
      omega
    rw [h1, h2]
    simp

/-! ## The claims -/

/-- C1 (conservation). Take any container of erased callables whose entities are alive, and
any container of `Updateable` pointers whose entities are alive, with every counter at
zero, and a repeat count `R` that an `int` index can reach and whose `N × R` calls fit a
`size_t`. Then both overloads of `measure_only_call` return, and afterwards the sum of the
per-instance counters plus the shared counter equals `N × R`. -/
theorem C1_conservation (P : Platform) (impl : FunctionImpl) (R : Nat)
    (container : List (function impl)) (name : String) (s : LambdaState impl)
    (vcontainer : List Nat) (vs : VirtualState)
    (halive : ∀ f ∈ container, f.target.alive s = true)
    (hzeroA : ∀ a ∈ s.slotsA, a.calls = 0) (hzeroB : s.world.LambdaB_calls = 0)
    (hvalive : ∀ p ∈ vcontainer, p < vs.updateables.length)
    (hvzeroA : ∀ u ∈ vs.updateables, u.instance_calls = 0)
    (hvzeroB : vs.world.UpdateableB_calls = 0)
    (hR : R ≤ INT_MAX)
    (hN : container.length * R < SIZE_T_MOD) (hvN : vcontainer.length * R < SIZE_T_MOD) :
    (∃ s1, measure_only_call_template P R container name s = some s1 ∧
      sum_calls_LambdaA s1.slotsA + s1.world.LambdaB_calls = container.length * R) ∧
    (∃ vs1, measure_only_call_virtual P R vcontainer vs = some vs1 ∧
      sum_calls_UpdateableA vs1.updateables + vs1.world.UpdateableB_calls
        = vcontainer.length * R) := by
  constructor
  · obtain ⟨s1, h1, _, _, _, _, _, h7⟩ :=
      measure_only_call_template_spec P R container name s halive hR
    have h0 : s.total = 0 := by
      simp [LambdaState.total, sum_calls_LambdaA_zero s.slotsA hzeroA, hzeroB]
    refine ⟨s1, h1, ?_⟩
    have := h7 (by rw [h0, Nat.mul_comm]; simpa using hN)
    rw [h0] at this
    simp only [LambdaState.total] at this
    rw [this, Nat.mul_comm]; simp
  · obtain ⟨vs1, h1, _, _, _, _, h6⟩ :=
      measure_only_call_virtual_spec P R vcontainer vs hvalive hR
    have h0 : vs.total = 0 := by
      simp [VirtualState.total, sum_calls_UpdateableA_zero vs.updateables hvzeroA, hvzeroB]
    refine ⟨vs1, h1, ?_⟩
    have := h6 (by rw [h0, Nat.mul_comm]; simpa using hvN)
    rw [h0] at this
    simp only [VirtualState.total] at this
    rw [this, Nat.mul_comm]; simp

/-- Witness of C1: four handles, two of each variant, and five passes give twenty calls. -/
theorem C1_conservation_witness :
    (∃ s1, measure_only_call_template alternating 5
        [(⟨Closure.A 0⟩ : function FunctionImpl.func), ⟨Closure.B 0⟩, ⟨Closure.A 1⟩,
          ⟨Closure.B 1⟩] "func::function"
        ⟨[⟨Closure.A 0⟩, ⟨Closure.B 0⟩, ⟨Closure.A 1⟩, ⟨Closure.B 1⟩], [⟨0⟩, ⟨0⟩], [⟨⟩, ⟨⟩],
          World.start⟩ = some s1 ∧
      sum_calls_LambdaA s1.slotsA + s1.world.LambdaB_calls = 4 * 5) ∧
    (∃ vs1, measure_only_call_virtual alternating 5 [0, 1, 2, 3]
        ⟨[Updateable.A ⟨0⟩, Updateable.B ⟨⟩, Updateable.A ⟨0⟩, Updateable.B ⟨⟩], [0, 1, 2, 3],
          World.start⟩ = some vs1 ∧
      sum_calls_UpdateableA vs1.updateables + vs1.world.UpdateableB_calls = 4 * 5) :=
  C1_conservation alternating FunctionImpl.func 5
    [⟨Closure.A 0⟩, ⟨Closure.B 0⟩, ⟨Closure.A 1⟩, ⟨Closure.B 1⟩] "func::function"
    ⟨[⟨Closure.A 0⟩, ⟨Closure.B 0⟩, ⟨Closure.A 1⟩, ⟨Closure.B 1⟩], [⟨0⟩, ⟨0⟩], [⟨⟩, ⟨⟩],
      World.start⟩
    [0, 1, 2, 3]
    ⟨[Updateable.A ⟨0⟩, Updateable.B ⟨⟩, Updateable.A ⟨0⟩, Updateable.B ⟨⟩], [0, 1, 2, 3],
      World.start⟩
    (by decide) (by decide) rfl (by decide) (by decide) rfl (by decide)
    (by decide) (by decide)

/-- C2 (per-instance counter of Variant-A). For a population of any size built by
`time_std_function`, resp. `time_virtual`, from any draws, and any repeat count `R` that an
`int` index can reach, the invocation loop returns and afterwards every `LambdaA`, resp.
every `UpdateableA`, of the owning storage has `calls` equal to `R`, however many other
Variant-A entities there are. -/
theorem C2_per_instance_counter (P : Platform) (impl : FunctionImpl) (n : Nat) (seed : Int)
    (name : String) (w : World) (R : Nat) (hR : R ≤ INT_MAX) :
    (∃ s1, measure_only_call_template P R
        (time_std_function_populate P impl n seed).1.update_loop name
        ((time_std_function_populate P impl n seed).1.with_world w) = some s1 ∧
      s1.slotsA.length = (time_std_function_populate P impl n seed).1.slotsA.length ∧
      ∀ a ∈ s1.slotsA, a.calls = R) ∧
    (∃ vs1, measure_only_call_virtual P R (time_virtual_populate P n seed).1.update_loop
        ((time_virtual_populate P n seed).1.with_world w) = some vs1 ∧
      vs1.updateables.map Updateable.variant
        = (time_virtual_populate P n seed).1.updateables.map Updateable.variant ∧
      ∀ obj, Updateable.A obj ∈ vs1.updateables → obj.calls = R) := by
  constructor
  · obtain ⟨s1, g1, _, _, g4, g5, _⟩ := built_LambdaA_calls P impl n seed name w R hR
    exact ⟨s1, g1, g4, g5⟩
  · obtain ⟨vs1, g1, _, g3, g4, _⟩ := built_UpdateableA_calls P n seed w R hR
    exact ⟨vs1, g1, g3, g4⟩

/-- Witness of C2: a population of four entities, two of them Variant-A, and five passes:
each Variant-A counter ends at five. -/
theorem C2_per_instance_counter_witness :
    5 ≤ INT_MAX ∧
    (∃ s1, measure_only_call_template alternating 5
        (time_std_function_populate alternating FunctionImpl.func 4 1).1.update_loop
        "func::function"
        ((time_std_function_populate alternating FunctionImpl.func 4 1).1.with_world
          World.start) = some s1 ∧
      s1.slotsA.length = 2 ∧ ∀ a ∈ s1.slotsA, a.calls = 5) :=
  ⟨by decide, (C2_per_instance_counter alternating FunctionImpl.func 4 1 "func::function"
    World.start 5 (by decide)).1⟩

/-- C3 (shared counter of Variant-B). For a population of any size built by
`time_std_function`, resp. `time_virtual`, and any repeat count `R` that an `int` index can
reach, the invocation loop returns, the `LambdaB` entities are left as they were, and the
calls of all Variant-B entities are accumulated in the one static counter: `LambdaB::calls`,
resp. `UpdateableB::calls`, grows by (number of Variant-B entities) × `R`, in `size_t`
arithmetic. -/
theorem C3_shared_counter (P : Platform) (impl : FunctionImpl) (n : Nat) (seed : Int)
    (name : String) (w : World) (R : Nat) (hR : R ≤ INT_MAX)
    (hB : w.LambdaB_calls < SIZE_T_MOD) (hvB : w.UpdateableB_calls < SIZE_T_MOD) :
    (∃ s1, measure_only_call_template P R
        (time_std_function_populate P impl n seed).1.update_loop name
        ((time_std_function_populate P impl n seed).1.with_world w) = some s1 ∧
      s1.slotsB = (time_std_function_populate P impl n seed).1.slotsB ∧
      s1.world.LambdaB_calls
        = (w.LambdaB_calls + (time_std_function_populate P impl n seed).1.slotsB.length * R)
            % SIZE_T_MOD ∧
      (w.LambdaB_calls + (time_std_function_populate P impl n seed).1.slotsB.length * R
          < SIZE_T_MOD →
        s1.world.LambdaB_calls
          = w.LambdaB_calls
            + (time_std_function_populate P impl n seed).1.slotsB.length * R)) ∧
    (∃ vs1, measure_only_call_virtual P R (time_virtual_populate P n seed).1.update_loop
        ((time_virtual_populate P n seed).1.with_world w) = some vs1 ∧
      vs1.world.UpdateableB_calls
        = (w.UpdateableB_calls
            + ((time_virtual_populate P n seed).1.updateables.countP
                fun u => decide (u.variant = Variant.B)) * R) % SIZE_T_MOD ∧
      (w.UpdateableB_calls
          + ((time_virtual_populate P n seed).1.updateables.countP
              fun u => decide (u.variant = Variant.B)) * R < SIZE_T_MOD →
        vs1.world.UpdateableB_calls
          = w.UpdateableB_calls
            + ((time_virtual_populate P n seed).1.updateables.countP
                fun u => decide (u.variant = Variant.B)) * R)) := by
  constructor
  · obtain ⟨s1, g1, _, g3, _, _, g6⟩ := built_LambdaA_calls P impl n seed name w R hR
    have hval : s1.world.LambdaB_calls
        = (w.LambdaB_calls + (time_std_function_populate P impl n seed).1.slotsB.length * R)
            % SIZE_T_MOD := by
      rw [g6]
      show pre_increment^[_] w.LambdaB_calls = _
      rw [pre_increment_iterate _ _ hB, Nat.mul_comm]
    exact ⟨s1, g1, g3, hval, fun hlt => by rw [hval, Nat.mod_eq_of_lt hlt]⟩
  · obtain ⟨vs1, g1, _, _, _, g5⟩ := built_UpdateableA_calls P n seed w R hR
    have hval : vs1.world.UpdateableB_calls
        = (w.UpdateableB_calls
            + ((time_virtual_populate P n seed).1.updateables.countP
                fun u => decide (u.variant = Variant.B)) * R) % SIZE_T_MOD := by
      rw [g5]
      show pre_increment^[_] w.UpdateableB_calls = _
      rw [pre_increment_iterate _ _ hvB, Nat.mul_comm]
    exact ⟨vs1, g1, hval, fun hlt => by rw [hval, Nat.mod_eq_of_lt hlt]⟩

/-- Witness of C3: a population of four entities, two of them Variant-B, and five passes:
the shared counter goes from zero to ten. -/
theorem C3_shared_counter_witness :
    5 ≤ INT_MAX ∧ World.start.LambdaB_calls < SIZE_T_MOD ∧
    World.start.UpdateableB_calls < SIZE_T_MOD ∧
    (time_std_function_populate alternating FunctionImpl.func 4 1).1.slotsB.length = 2 ∧
    (∃ s1, measure_only_call_template alternating 5
        (time_std_function_populate alternating FunctionImpl.func 4 1).1.update_loop
        "func::function"
        ((time_std_function_populate alternating FunctionImpl.func 4 1).1.with_world
          World.start) = some s1 ∧
      s1.world.LambdaB_calls = (0 + 2 * 5) % SIZE_T_MOD) := by
  refine ⟨by decide, by decide, by decide, by decide, ?_⟩
  obtain ⟨s1, h1, _, h3, _⟩ := (C3_shared_counter alternating FunctionImpl.func 4 1
    "func::function" World.start 5 (by decide) (by decide) (by decide)).1
  exact ⟨s1, h1, h3⟩

/-- C4 (no cross-entity aliasing). Let `n` rounds of the loop of `time_std_function` have
built the population, for either callable type and any reallocation policy of the vector,
and let `k < n`. The callable that round `k` appended, when it constructed its entity, is
still element `k` of the final population. On any memory `s` with the storage of that
population: when draw `k` is non-zero the entity is the `LambdaA` at address
`e = (slotsA after k rounds).length`, and one call of the callable returns, adds one to
the counter of `e` (in `size_t` arithmetic) and changes no other `LambdaA`, no static
counter, nothing else; when draw `k` is zero the entity is a `LambdaB`, and one call
returns, adds one to `LambdaB::calls` (in `size_t` arithmetic) and changes nothing
else. -/
theorem C4_no_cross_entity_aliasing (P : Platform) (impl : FunctionImpl) (n k : Nat)
    (seed : Int) (hk : k < n) (s : LambdaState impl)
    (hA : s.slotsA.length = (time_std_function_populate P impl n seed).1.slotsA.length)
    (hB : s.slotsB.length = (time_std_function_populate P impl n seed).1.slotsB.length) :
    ∃ f, (time_std_function_populate P impl (k + 1) seed).1.update_loop
          = (time_std_function_populate P impl k seed).1.update_loop ++ [f] ∧
      (time_std_function_populate P impl k seed).1.update_loop.length = k ∧
      (time_std_function_populate P impl n seed).1.update_loop[k]? = some f ∧
      ((draw P seed k).val ≠ 0 →
        (time_std_function_populate P impl (k + 1) seed).1.slotsA
          = (time_std_function_populate P impl k seed).1.slotsA ++ [⟨0⟩] ∧
        ∃ obj s1,
          s.slotsA[(time_std_function_populate P impl k seed).1.slotsA.length]? = some obj ∧
          f.call tick s = some s1 ∧
          s1.slotsA[(time_std_function_populate P impl k seed).1.slotsA.length]?
            = some ⟨(obj.calls + 1) % SIZE_T_MOD⟩ ∧
          (obj.calls + 1 < SIZE_T_MOD →
            s1.slotsA[(time_std_function_populate P impl k seed).1.slotsA.length]?
              = some ⟨obj.calls + 1⟩) ∧
          (∀ j, j ≠ (time_std_function_populate P impl k seed).1.slotsA.length →
            s1.slotsA[j]? = s.slotsA[j]?) ∧
          s1.slotsB = s.slotsB ∧ s1.world = s.world ∧ s1.update_loop = s.update_loop) ∧
      ((draw P seed k).val = 0 →
        (time_std_function_populate P impl (k + 1) seed).1.slotsB
          = (time_std_function_populate P impl k seed).1.slotsB ++ [⟨⟩] ∧
        ∃ s1, f.call tick s = some s1 ∧
          s1.world = { s.world with
            LambdaB_calls := (s.world.LambdaB_calls + 1) % SIZE_T_MOD } ∧
          (s.world.LambdaB_calls + 1 < SIZE_T_MOD →
            s1.world.LambdaB_calls = s.world.LambdaB_calls + 1) ∧
          s1.slotsA = s.slotsA ∧ s1.slotsB = s.slotsB ∧ s1.update_loop = s.update_loop) := by
  obtain ⟨hget, hltA, hltB⟩ := time_std_function_populate_get P impl n k seed hk
  have hlen := (time_std_function_populate_inv P impl k seed _ rfl).1
  have hsucc := time_std_function_populate_succ P impl k seed
  by_cases hr : (draw P seed k).val ≠ 0
  · rw [if_pos hr] at hget hsucc
    refine ⟨_, by rw [hsucc], hlen, hget, ?_, fun h => absurd h hr⟩
    intro _
    have hlt : (time_std_function_populate P impl k seed).1.slotsA.length
        < s.slotsA.length := by rw [hA]; exact hltA hr
    refine ⟨by rw [hsucc], s.slotsA[(time_std_function_populate P impl k seed).1.slotsA.length],
      { s with slotsA := (s.slotsA.set
          (time_std_function_populate P impl k seed).1.slotsA.length
          ⟨pre_increment
            s.slotsA[(time_std_function_populate P impl k seed).1.slotsA.length].calls⟩) },
      List.getElem?_eq_getElem hlt, ?_, ?_, ?_, ?_, rfl, rfl, rfl⟩
    · simp [function.call, Closure.call, List.getElem?_eq_getElem hlt, LambdaA.update]
    · simp [List.getElem?_set, hlt, pre_increment]
    · intro hsmall
      simp [List.getElem?_set, hlt, pre_increment, Nat.mod_eq_of_lt hsmall]
    · intro j hj
      exact List.getElem?_set_ne (Ne.symm hj)
  · rw [if_neg hr] at hget hsucc
    have hr0 : (draw P seed k).val = 0 := by
      by_contra h; exact hr h
    refine ⟨_, by rw [hsucc], hlen, hget, fun h => absurd h hr, ?_⟩
    intro _
    have hlt : (time_std_function_populate P impl k seed).1.slotsB.length
        < s.slotsB.length := by rw [hB]; exact hltB hr0
    refine ⟨by rw [hsucc], { s with world :=
      { s.world with LambdaB_calls := pre_increment s.world.LambdaB_calls } },
      ?_, rfl, ?_, rfl, rfl, rfl⟩
    · simp [function.call, Closure.call, List.getElem?_eq_getElem hlt, LambdaB.update]
    · intro hsmall
      simp [pre_increment, Nat.mod_eq_of_lt hsmall]

/-- Witness of C4: with draws 1, 0, 1, 0 the third round makes the second `LambdaA`; the
element of index 2 of the final population calls it and nothing else. -/
theorem C4_no_cross_entity_aliasing_witness :
    2 < 4 ∧ (draw alternating 1 2).val ≠ 0 ∧
    ∃ f obj s1,
      (time_std_function_populate alternating FunctionImpl.func 4 1).1.update_loop[2]?
        = some f ∧
      ((time_std_function_populate alternating FunctionImpl.func 4 1).1.with_world
        World.start).slotsA[1]? = some obj ∧
      f.call tick ((time_std_function_populate alternating FunctionImpl.func 4 1).1.with_world
        World.start) = some s1 ∧
      s1.slotsA[1]? = some ⟨(obj.calls + 1) % SIZE_T_MOD⟩ ∧ s1.world = World.start := by
  refine ⟨by decide, by decide, ?_⟩
  obtain ⟨f, _, _, h3, h4, _⟩ := C4_no_cross_entity_aliasing alternating FunctionImpl.func 4 2 1
    (by decide)
    ((time_std_function_populate alternating FunctionImpl.func 4 1).1.with_world World.start)
    rfl rfl
  obtain ⟨_, obj, s1, g1, g2, g3, _, _, _, g6, _⟩ := h4 (by decide)
  exact ⟨f, obj, s1, h3, g1, g2, g3, g6⟩

/-- C5 (determinism of the generator). For every platform, seed and number of rounds, the
variant choices of the population built by `time_std_function` with `std::function`, by
`time_std_function` with `func::function` and by `time_virtual` are one and the same list
`variant_choices`, which is computed from the seed by the engine and the distribution alone
(a non-zero draw gives Variant-A, zero Variant-B). -/
theorem C5_generator_determinism (P : Platform) (seed : Int) (n : Nat) :
    (time_std_function_populate P FunctionImpl.std n seed).1.update_loop.map
        (fun f => f.target.variant) = variant_choices P seed n ∧
    (time_std_function_populate P FunctionImpl.func n seed).1.update_loop.map
        (fun f => f.target.variant) = variant_choices P seed n ∧
    (time_virtual_populate P n seed).1.update_loop.map
        (fun p => ((time_virtual_populate P n seed).1.updateables[p]?).map Updateable.variant)
      = (variant_choices P seed n).map some ∧
    (∀ r : Fin 2, (Variant.of_draw r = Variant.A ↔ r = 1) ∧
      (Variant.of_draw r = Variant.B ↔ r = 0)) := by
  refine ⟨(time_std_function_populate_inv P FunctionImpl.std n seed _ rfl).2.2.2.2.2.2,
    (time_std_function_populate_inv P FunctionImpl.func n seed _ rfl).2.2.2.2.2.2, ?_,
    by decide⟩
  obtain ⟨h1, h2⟩ := time_virtual_populate_inv P n seed
  rw [h1, h2]
  unfold variant_choices
  rw [List.map_map]
  apply List.map_congr_left
  intro p hp
  have hp' : p < n := List.mem_range.1 hp
  rw [List.getElem?_map, List.getElem?_range hp']
  by_cases hr : (draw P seed p).val ≠ 0
  · simp [Variant.of_draw, hr, Updateable.variant]
  · simp only [Option.map_some', Function.comp_apply, Variant.of_draw, if_neg hr]
    rfl

/-- C6 (population shape). For every platform, seed, callable type and index
`i < num_allocations`: the population of `time_std_function` has `num_allocations`
elements, its element `i` is the callable bound to the entity made in round `i` (the
`LambdaA` at the address `slotsA` had as length before that round when draw `i` is
non-zero, else the `LambdaB` at the address `slotsB` had as length), and that entity is in
the final owning storage; the population of `time_virtual` has `num_allocations` elements,
its element `i` is the pointer `i`, the address the entity of round `i` was given, and that
entity is an `UpdateableA` when draw `i` is non-zero, else an `UpdateableB`. -/
theorem C6_population_shape (P : Platform) (impl : FunctionImpl) (seed : Int) (i : Nat)
    (hi : i < num_allocations) :
    ((time_std_function_populate P impl num_allocations seed).1.update_loop.length
        = num_allocations ∧
      (time_std_function_populate P impl i seed).1.update_loop.length = i ∧
      (time_std_function_populate P impl num_allocations seed).1.update_loop[i]? =
        some ⟨if (draw P seed i).val ≠ 0
          then Closure.A (time_std_function_populate P impl i seed).1.slotsA.length
          else Closure.B (time_std_function_populate P impl i seed).1.slotsB.length⟩ ∧
      ((draw P seed i).val ≠ 0 →
        (time_std_function_populate P impl num_allocations seed).1.slotsA[
          (time_std_function_populate P impl i seed).1.slotsA.length]? = some ⟨0⟩) ∧
      ((draw P seed i).val = 0 →
        (time_std_function_populate P impl num_allocations seed).1.slotsB[
          (time_std_function_populate P impl i seed).1.slotsB.length]? = some ⟨⟩)) ∧
    ((time_virtual_populate P num_allocations seed).1.update_loop.length = num_allocations ∧
      (time_virtual_populate P i seed).1.updateables.length = i ∧
      (time_virtual_populate P num_allocations seed).1.update_loop[i]? = some i ∧
      (time_virtual_populate P num_allocations seed).1.updateables[i]? =
        some (if (draw P seed i).val ≠ 0 then Updateable.A ⟨0⟩ else Updateable.B ⟨⟩)) := by
  constructor
  · obtain ⟨hget, hltA, hltB⟩ :=
      time_std_function_populate_get P impl num_allocations i seed hi
    obtain ⟨hlen, _, hzero, _⟩ :=
      time_std_function_populate_inv P impl num_allocations seed _ rfl
    refine ⟨hlen, (time_std_function_populate_inv P impl i seed _ rfl).1, hget, ?_, ?_⟩
    · intro hr
      have hlt := hltA hr
      rw [List.getElem?_eq_getElem hlt]
      exact congrArg some (LambdaA.eq_of_calls_zero _ (hzero _ (List.getElem_mem hlt)))
    · intro hr
      have hlt := hltB hr
      rw [List.getElem?_eq_getElem hlt]
  · obtain ⟨h1, h2⟩ := time_virtual_populate_inv P num_allocations seed
    refine ⟨by rw [h1]; simp, by rw [(time_virtual_populate_inv P i seed).2]; simp, ?_, ?_⟩
    · rw [h1, List.getElem?_range hi]
    · rw [h2, List.getElem?_map, List.getElem?_range hi]
      rfl

/-- Witness of C6 at index 3. -/
theorem C6_population_shape_witness :
    3 < num_allocations ∧
    (time_virtual_populate alternating num_allocations 1).1.update_loop[3]? = some 3 ∧
    (time_virtual_populate alternating num_allocations 1).1.updateables[3]?
      = some (if (draw alternating 1 3).val ≠ 0 then Updateable.A ⟨0⟩ else Updateable.B ⟨⟩) :=
  ⟨by decide,
    (C6_population_shape alternating FunctionImpl.func 1 3 (by decide)).2.2.2.1,
    (C6_population_shape alternating FunctionImpl.func 1 3 (by decide)).2.2.2.2⟩

/-- C7 (driver output). For every platform, build, argument count and starting world,
`main` returns, having run `time_std_function` with `std::function`, then
`time_std_function` with `func::function`, then `time_virtual`, each taking two clock
readings, and standard output has grown by exactly three lines, in that order, each
`<label>: <elapsed-milliseconds> ms` followed by a newline, with the labels
`std::function`, `func::function` and `virtual function`. A `ScopedMeasurer` writes nothing
when constructed and one such line when destroyed. -/
theorem C7_driver_output (P : Platform) (DEBUG : Bool) (argc : Int) (w : World) :
    (∃ w1 w2 w3,
      time_std_function P FunctionImpl.std (num_calls DEBUG) argc "std::function" w
        = some w1 ∧
      time_std_function P FunctionImpl.func (num_calls DEBUG) argc "func::function" w1
        = some w2 ∧
      time_virtual P (num_calls DEBUG) argc w2 = some w3 ∧
      main P DEBUG argc w = some w3 ∧
      w1.clock_reads = w.clock_reads + 2 ∧ w2.clock_reads = w.clock_reads + 4 ∧
      w3.clock_reads = w.clock_reads + 6 ∧
      w1.cout = w.cout
        ++ ("std::function" ++ ": "
          ++ toString (P.duration_cast_ms (P.now (w.clock_reads + 1) - P.now w.clock_reads))
          ++ " ms" ++ "\n") ∧
      w2.cout = w1.cout
        ++ ("func::function" ++ ": "
          ++ toString
            (P.duration_cast_ms (P.now (w.clock_reads + 3) - P.now (w.clock_reads + 2)))
          ++ " ms" ++ "\n") ∧
      w3.cout = w2.cout
        ++ ("virtual function" ++ ": "
          ++ toString
            (P.duration_cast_ms (P.now (w.clock_reads + 5) - P.now (w.clock_reads + 4)))
          ++ " ms" ++ "\n")) ∧
    (∀ (name : String) (w0 w1 : World),
      (ScopedMeasurer.ctor P name w0).2.cout = w0.cout ∧
      (ScopedMeasurer.dtor P (ScopedMeasurer.ctor P name w0).1 w1).cout
        = w1.cout ++ name ++ ": "
          ++ toString (P.duration_cast_ms (P.now w1.clock_reads - P.now w0.clock_reads))
          ++ " ms" ++ "\n") := by
  refine ⟨?_, fun name w0 w1 => ⟨rfl, rfl⟩⟩
  have hR := num_calls_le_INT_MAX DEBUG
  obtain ⟨w1, h1, c1, o1⟩ : ∃ w1,
      time_std_function P FunctionImpl.std (num_calls DEBUG) argc "std::function" w
        = some w1 ∧
      w1.clock_reads = w.clock_reads + 2 ∧
      w1.cout = w.cout ++ report_line P "std::function" w.clock_reads :=
    ⟨_, time_std_function_spec P FunctionImpl.std (num_calls DEBUG) argc "std::function" w hR,
      rfl, rfl⟩
  obtain ⟨w2, h2, c2, o2⟩ : ∃ w2,
      time_std_function P FunctionImpl.func (num_calls DEBUG) argc "func::function" w1
        = some w2 ∧
      w2.clock_reads = w1.clock_reads + 2 ∧
      w2.cout = w1.cout ++ report_line P "func::function" w1.clock_reads :=
    ⟨_, time_std_function_spec P FunctionImpl.func (num_calls DEBUG) argc "func::function"
      w1 hR, rfl, rfl⟩
  obtain ⟨w3, h3, c3, o3⟩ : ∃ w3,
      time_virtual P (num_calls DEBUG) argc w2 = some w3 ∧
      w3.clock_reads = w2.clock_reads + 2 ∧
      w3.cout = w2.cout ++ report_line P "virtual function" w2.clock_reads :=
    ⟨_, time_virtual_spec P (num_calls DEBUG) argc w2 hR, rfl, rfl⟩
  refine ⟨w1, w2, w3, h1, h2, h3, ?_, c1, by omega, by omega, o1, ?_, ?_⟩
  · unfold main
    simp only [h1, Option.some_bind, h2, h3]
  · rw [o2, c1]; rfl
  · rw [o3, c2, c1]; rfl

/-- C8 (handle validity). For a population of any size built by `time_std_function`,
resp. `time_virtual`, and any repeat count `R` that an `int` index can reach: every handle
of the population refers to an entity of the owning storage; on any memory with that
population and that storage, whatever the counters, one call through any handle of the
population returns and leaves the population and the storage as they are (same handles,
same number of `LambdaA`, same `LambdaB`, resp. same dynamic type behind every pointer);
and the whole invocation loop returns with the population and the storage unchanged in
that sense. -/
theorem C8_handle_validity (P : Platform) (impl : FunctionImpl) (n : Nat) (seed : Int)
    (name : String) (w : World) (R : Nat) (hR : R ≤ INT_MAX) :
    ((∀ f ∈ (time_std_function_populate P impl n seed).1.update_loop,
        f.target.alive ((time_std_function_populate P impl n seed).1.with_world w) = true) ∧
      (∀ s : LambdaState impl,
        s.update_loop = (time_std_function_populate P impl n seed).1.update_loop →
        s.slotsA.length = (time_std_function_populate P impl n seed).1.slotsA.length →
        s.slotsB = (time_std_function_populate P impl n seed).1.slotsB →
        ∀ f ∈ (time_std_function_populate P impl n seed).1.update_loop,
          ∃ s1, f.call tick s = some s1 ∧ s1.update_loop = s.update_loop ∧
            s1.slotsA.length = s.slotsA.length ∧ s1.slotsB = s.slotsB) ∧
      (∃ s1, measure_only_call_template P R
          (time_std_function_populate P impl n seed).1.update_loop name
          ((time_std_function_populate P impl n seed).1.with_world w) = some s1 ∧
        s1.update_loop = (time_std_function_populate P impl n seed).1.update_loop ∧
        s1.slotsA.length = (time_std_function_populate P impl n seed).1.slotsA.length ∧
        s1.slotsB = (time_std_function_populate P impl n seed).1.slotsB)) ∧
    ((∀ p ∈ (time_virtual_populate P n seed).1.update_loop,
        p < (time_virtual_populate P n seed).1.updateables.length) ∧
      (∀ vs : VirtualState,
        vs.update_loop = (time_virtual_populate P n seed).1.update_loop →
        vs.updateables.map Updateable.variant
          = (time_virtual_populate P n seed).1.updateables.map Updateable.variant →
        ∀ p ∈ (time_virtual_populate P n seed).1.update_loop,
          ∃ vs1, Updateable.update p tick vs = some vs1 ∧ vs1.update_loop = vs.update_loop ∧
            vs1.updateables.map Updateable.variant
              = vs.updateables.map Updateable.variant) ∧
      (∃ vs1, measure_only_call_virtual P R (time_virtual_populate P n seed).1.update_loop
          ((time_virtual_populate P n seed).1.with_world w) = some vs1 ∧
        vs1.update_loop = (time_virtual_populate P n seed).1.update_loop ∧
        vs1.updateables.map Updateable.variant
          = (time_virtual_populate P n seed).1.updateables.map Updateable.variant)) := by
  constructor
  · have halive := (time_std_function_populate_inv P impl n seed _ rfl).2.2.2.2.2.1
    refine ⟨fun f hf => halive f hf w, ?_, ?_⟩
    · intro s _ hA hB f hf
      have hal : f.target.alive s = true := by
        rw [← halive f hf w]
        exact Closure.alive_congr f.target _ s hA hB
      obtain ⟨s1, h1, h2, h3, h4, _⟩ := Closure.call_spec f.target s hal
      exact ⟨s1, h1, h2, h4, h3⟩
    · obtain ⟨s1, g1, g2, g3, g4, _⟩ := built_LambdaA_calls P impl n seed name w R hR
      exact ⟨s1, g1, g2, g4, g3⟩
  · obtain ⟨h1, h2⟩ := time_virtual_populate_inv P n seed
    have hlen : (time_virtual_populate P n seed).1.updateables.length = n := by
      rw [h2]; simp
    have hptr : ∀ p ∈ (time_virtual_populate P n seed).1.update_loop,
        p < (time_virtual_populate P n seed).1.updateables.length := by
      intro p hp
      rw [h1] at hp
      rw [hlen]; exact List.mem_range.1 hp
    refine ⟨hptr, ?_, ?_⟩
    · intro vs _ hvar p hp
      have hl : vs.updateables.length
          = (time_virtual_populate P n seed).1.updateables.length := by
        have := congrArg List.length hvar
        simpa using this
      obtain ⟨vs1, g1, g2, g3, _⟩ :=
        Updateable.update_spec p vs (by rw [hl]; exact hptr p hp)
      exact ⟨vs1, g1, g2, g3⟩
    · obtain ⟨vs1, g1, g2, g3, _⟩ := built_UpdateableA_calls P n seed w R hR
      exact ⟨vs1, g1, g2, g3⟩

/-- Witness of C8: a population of four entities and five passes. -/
theorem C8_handle_validity_witness :
    5 ≤ INT_MAX ∧
    ∃ s1, measure_only_call_template alternating 5
        (time_std_function_populate alternating FunctionImpl.func 4 1).1.update_loop
        "func::function"
        ((time_std_function_populate alternating FunctionImpl.func 4 1).1.with_world
          World.start) = some s1 ∧
      s1.update_loop
        = (time_std_function_populate alternating FunctionImpl.func 4 1).1.update_loop ∧
      s1.slotsA.length = 2 ∧ s1.slotsB = [⟨⟩, ⟨⟩] :=
  ⟨by decide, (C8_handle_validity alternating FunctionImpl.func 4 1 "func::function"
    World.start 5 (by decide)).1.2.2⟩

/-- Counterexample to C9. On the example platform, release build, `argc = 1`: the run of
`time_std_function` with `std::function` leaves `LambdaB::calls` at 50000000; the run with
`func::function` starts from there and ends at 100000000, whereas started from the state of
program start it would end at 50000000. -/
theorem C9_counterexample :
    ∃ w1 w2 w2fresh,
      time_std_function alternating FunctionImpl.std (num_calls false) 1 "std::function"
        World.start = some w1 ∧
      time_std_function alternating FunctionImpl.func (num_calls false) 1 "func::function"
        w1 = some w2 ∧
      time_std_function alternating FunctionImpl.func (num_calls false) 1 "func::function"
        World.start = some w2fresh ∧
      w1.LambdaB_calls = 50000000 ∧ w2.LambdaB_calls = 100000000 ∧
      w2fresh.LambdaB_calls = 50000000 := by
  have hR := num_calls_le_INT_MAX false
  have hc : num_calls false * count_B alternating 1 num_allocations = 50000000 := by
    have h500 : count_B alternating 1 num_allocations = 500 := alternating_count_B 500
    have hRv : num_calls false = 100000 := rfl
    rw [h500, hRv]
  obtain ⟨w1, h1, v1, _⟩ := time_std_function_world alternating FunctionImpl.std
    (num_calls false) 1 "std::function" World.start hR
  obtain ⟨w2, h2, v2, _⟩ := time_std_function_world alternating FunctionImpl.func
    (num_calls false) 1 "func::function" w1 hR
  obtain ⟨w2fresh, h3, v3, _⟩ := time_std_function_world alternating FunctionImpl.func
    (num_calls false) 1 "func::function" World.start hR
  have hz : World.start.LambdaB_calls = 0 := rfl
  rw [hz] at v1 v3
  rw [hc] at v1 v2 v3
  rw [pre_increment_iterate_zero _ (by unfold SIZE_T_MOD; norm_num)] at v1 v3
  rw [v1, pre_increment_iterate _ _ (by unfold SIZE_T_MOD; norm_num)] at v2
  refine ⟨w1, w2, w2fresh, h1, h2, h3, v1, ?_, v3⟩
  rw [v2]
  unfold SIZE_T_MOD
  norm_num

/-- C9, amended. For every platform, build and argument count, `main` started at program
start runs its three benchmark functions to the end, and: every `LambdaA` and every
`UpdateableA` of a run is constructed with `calls = 0` in that run; `UpdateableB::calls`
is zero when each run starts and is `nB × num_calls` after the virtual run;
`LambdaB::calls` is zero when the `std::function` run starts, `nB × num_calls` when the
`func::function` run starts, and `2 × nB × num_calls` after it and at the end of `main`
(`nB` is the number of Variant-B choices among the `num_allocations` draws). -/
theorem C9_state_across_strategies (P : Platform) (DEBUG : Bool) (argc : Int) :
    ∃ w1 w2 w3,
      time_std_function P FunctionImpl.std (num_calls DEBUG) argc "std::function"
        World.start = some w1 ∧
      time_std_function P FunctionImpl.func (num_calls DEBUG) argc "func::function" w1
        = some w2 ∧
      time_virtual P (num_calls DEBUG) argc w2 = some w3 ∧
      main P DEBUG argc World.start = some w3 ∧
      (∀ impl : FunctionImpl,
        ∀ a ∈ (time_std_function_populate P impl num_allocations argc).1.slotsA,
          a.calls = 0) ∧
      (∀ obj, Updateable.A obj ∈ (time_virtual_populate P num_allocations argc).1.updateables →
        obj.calls = 0) ∧
      World.start.LambdaB_calls = 0 ∧
      w1.LambdaB_calls = count_B P argc num_allocations * num_calls DEBUG ∧
      w2.LambdaB_calls = 2 * (count_B P argc num_allocations * num_calls DEBUG) ∧
      w3.LambdaB_calls = 2 * (count_B P argc num_allocations * num_calls DEBUG) ∧
      World.start.UpdateableB_calls = 0 ∧ w1.UpdateableB_calls = 0 ∧
      w2.UpdateableB_calls = 0 ∧
      w3.UpdateableB_calls = count_B P argc num_allocations * num_calls DEBUG := by
  have hR := num_calls_le_INT_MAX DEBUG
  have hb := run_calls_bound P argc DEBUG
  obtain ⟨w1, h1, a1, b1⟩ := time_std_function_world P FunctionImpl.std (num_calls DEBUG)
    argc "std::function" World.start hR
  obtain ⟨w2, h2, a2, b2⟩ := time_std_function_world P FunctionImpl.func (num_calls DEBUG)
    argc "func::function" w1 hR
  obtain ⟨w3, h3, b3, a3⟩ := time_virtual_world P (num_calls DEBUG) argc w2 hR
  have hzL : World.start.LambdaB_calls = 0 := rfl
  have hzU : World.start.UpdateableB_calls = 0 := rfl
  have hM : (18446744073709551616 : Nat) = SIZE_T_MOD := by unfold SIZE_T_MOD; norm_num
  rw [hzL, pre_increment_iterate_zero _ (by rw [← hM]; omega)] at a1
  rw [a1, pre_increment_iterate _ _ (by rw [← hM]; omega),
    Nat.mod_eq_of_lt (by rw [← hM]; omega)] at a2
  rw [hzU] at b1
  rw [b1] at b2
  rw [b2, pre_increment_iterate_zero _ (by rw [← hM]; omega)] at b3
  rw [a2] at a3
  refine ⟨w1, w2, w3, h1, h2, h3, ?_, ?_, ?_, rfl, ?_, ?_, ?_, rfl, b1, b2, ?_⟩
  · unfold main
    simp only [h1, Option.some_bind, h2, h3]
  · intro impl
    exact (time_std_function_populate_inv P impl num_allocations argc _ rfl).2.2.1
  · intro obj hobj
    exact built_UpdateableA_zero P num_allocations argc obj hobj
  · rw [a1, Nat.mul_comm]
  · rw [a2]; ring
  · rw [a3]; ring
  · rw [b3, Nat.mul_comm]

/-- Counterexample to C10. On the example platform with seed 1, the one owning vector
`updateables` of `time_virtual` holds an `UpdateableA` at index 0 and an `UpdateableB` at
index 1. -/
theorem C10_counterexample :
    (time_virtual_populate alternating num_allocations 1).1.updateables[0]?
        = some (Updateable.A ⟨0⟩) ∧
    (time_virtual_populate alternating num_allocations 1).1.updateables[1]?
        = some (Updateable.B ⟨⟩) := by
  have h := (time_virtual_populate_inv alternating num_allocations 1).2
  have h0 : (0 : Nat) < num_allocations := by decide
  have h1 : (1 : Nat) < num_allocations := by decide
  constructor
  · rw [h, List.getElem?_map, List.getElem?_range h0]
    rfl
  · rw [h, List.getElem?_map, List.getElem?_range h1]
    rfl

/-- C10, amended. For every platform, seed and callable type: `time_std_function` owns its
entities in two vectors, `slotsA` of `LambdaA` and `slotsB` of `LambdaB`, whose sizes are
the numbers of Variant-A and Variant-B choices and sum to `num_allocations`, and its
population is a third vector of `num_allocations` callables that capture addresses of those
entities; `time_virtual` owns its entities of both variants in the single vector
`updateables`, of size `num_allocations` and in draw order, and its population is a second
vector holding the addresses `0, 1, ..., num_allocations - 1` of those entities. -/
theorem C10_ownership (P : Platform) (impl : FunctionImpl) (seed : Int) (w : World) :
    ((time_std_function_populate P impl num_allocations seed).1.slotsA.length
        + (time_std_function_populate P impl num_allocations seed).1.slotsB.length
        = num_allocations ∧
      (time_std_function_populate P impl num_allocations seed).1.slotsB.length
        = count_B P seed num_allocations ∧
      (time_std_function_populate P impl num_allocations seed).1.update_loop.length
        = num_allocations ∧
      ∀ f ∈ (time_std_function_populate P impl num_allocations seed).1.update_loop,
        f.target.alive ((time_std_function_populate P impl num_allocations seed).1.with_world w)
          = true) ∧
    ((time_virtual_populate P num_allocations seed).1.updateables.length = num_allocations ∧
      (time_virtual_populate P num_allocations seed).1.updateables.map Updateable.variant
        = variant_choices P seed num_allocations ∧
      (time_virtual_populate P num_allocations seed).1.update_loop
        = List.range num_allocations) := by
  obtain ⟨h1, h2, _, _, _, h6, _⟩ :=
    time_std_function_populate_inv P impl num_allocations seed _ rfl
  obtain ⟨g1, g2⟩ := time_virtual_populate_inv P num_allocations seed
  refine ⟨⟨h2, slotsB_length_eq_count_B P impl num_allocations seed, h1,
    fun f hf => h6 f hf w⟩, ?_, updateables_variants P num_allocations seed, g1⟩
  rw [g2]
  simp

end CompareFunctions
